import Mathlib

/-!
# OpenMPT `common/mptRandom.cpp`: the random device with a time-seeded fallback

A shallow embedding of `mpt::sane_random_device` (constructors, `init_fallback`,
`operator()`), of `mpt::is_mask`, and of the two extraction loops of `operator()`.

Modelling conventions.

* Machine integers are natural numbers, reduced `% 2 ^ w` where the C++ type truncates.
* `std::random_device` is an external object.  Its behaviour is an arbitrary function
  from the number of earlier invocations to the outcome of the next one
  (`none`: the invocation throws a `std::exception`), together with the count of
  invocations made so far.
* `std::seed_seq` + `std::mt19937` and `mpt::random<result_type>` are external; they
  are the two fields of `fallback_engine`.
* `double` arithmetic of the general extraction path is taken in exact (rational)
  arithmetic.
* The mutex is not modelled: one call of `operator()` is one atomic step.
* Allocation of the fallback generator is taken to succeed.
-/

namespace mpt

/-! ## Data model -/

/-- The two kinds of C++ exception the code distinguishes: `mpt::out_of_memory` and
every other `std::exception`. -/
inductive exception where
  | out_of_memory
  | std_exception
deriving DecidableEq, Repr

/-- Ways in which `operator()` can fail to return a value at all. -/
inductive fault where
  /-- `*rd_fallback` is evaluated while `rd_fallback` is empty. -/
  | null_fallback
  /-- `result_bits() / log2(rd_size)` with `rd_size <= 1`: no iteration count. -/
  | no_iteration_count
  /-- the loop `entropy += rd_bits` does not reach `sizeof(result_type) * 8`. -/
  | nontermination
deriving DecidableEq, Repr

/-- The external `std::random_device` object: `outcomes i` is what invocation number
`i` (counted from 0) does, `none` meaning that it throws; `calls` is the number of
invocations made so far. -/
structure random_device where
  outcomes : Nat → Option Nat
  calls : Nat

/-- One evaluation of `(*prd)()`: the outcome, and the device after the invocation. -/
def random_device.invoke (rd : random_device) : Option Nat × random_device :=
  (rd.outcomes rd.calls, { rd with calls := rd.calls + 1 })

/-- Compile-time constants of the translation unit: the width of `unsigned int`
(the type of `std::random_device::max()`), `std::random_device::min()`,
`std::random_device::max()` and `sizeof(result_type) * 8`. -/
structure config where
  uint_bits : Nat
  rd_min : Nat
  rd_max : Nat
  result_bits : Nat

/-- Modelled from the spec: `sane_random_device::min()` of the missing header
`mptRandom.h`; the result type is unsigned and `min()`, `max()` span its full range. -/
def config.min (_cfg : config) : Nat := 0

/-- Modelled from the spec: `sane_random_device::max()` of the missing header
`mptRandom.h`, the largest value of the `result_bits`-wide unsigned result type. -/
def config.max (cfg : config) : Nat := 2 ^ cfg.result_bits - 1

/-- The external fallback machinery: `seed_seq seeds` is
`std::mt19937(std::seed_seq(seeds.begin(), seeds.end()))`, and `random g` is
`mpt::random<result_type>(g)`: the value drawn and the generator afterwards. -/
structure fallback_engine where
  G : Type
  seed_seq : List Nat → G
  random : G → Nat × G

/-- The member variables of `sane_random_device` (the mutex apart).  A `char` of the
token is an integer; `prd` and `rd_fallback` are the two `std::unique_ptr`s. -/
structure sane_random_device (G : Type) where
  token : List Int
  prd : Option random_device
  rd_reliable : Bool
  rd_fallback : Option G

/-! ## `is_mask` and `lower_bound_entropy_bits` -/

/-- The loop of `is_mask` with `n` iterations left and the current `mask`, for an
unsigned type of `w` bits. -/
def is_mask_loop (w ux : Nat) : Nat → Nat → Bool
  | 0, _ => false
  | n + 1, mask =>
    let mask1 := ((mask <<< 1) ||| 1) % 2 ^ w
    if ux = mask1 then true else is_mask_loop w ux n mask1

/-- The function `is_mask<T>` for an integer type of `w` bits: `bits` runs over
`0 .. w` inclusive, that is `w + 1` iterations. -/
def is_mask (w x : Nat) : Bool :=
  is_mask_loop w (x % 2 ^ w) (w + 1) 0

/-- Modelled from the spec: `detail::lower_bound_entropy_bits` of the missing header
`mptRandom.h`.  For a raw range `[0, 2^k - 1]` the fast path shifts by `k` bits, so
the function sends `2^k - 1` to `k`; in general it is the number of bits that every
value up to `x` can supply, `floor (log2 (x + 1))`. -/
def lower_bound_entropy_bits (x : Nat) : Nat := Nat.log2 (x + 1)

/-! ## The two extraction paths of `operator()` -/

/-- What the `try` block of `operator()` does: it runs to its end (`returned`), an
invocation of the primary source throws (`threw`), or it has no defined result.
In the first two cases `result` is the content of the local variable `result` at
that moment. -/
inductive extraction where
  | returned (result : Nat) (rd : random_device)
  | threw (result : Nat) (rd : random_device)
  | stuck (f : fault)

/-- The loop of the sane branch, `for(entropy = 0; entropy < W; entropy += rd_bits)`,
with an explicit bound `fuel` on the number of iterations. -/
def sane_loop (W rd_bits : Nat) : Nat → Nat → Nat → random_device → extraction
  | 0, entropy, result, rd =>
    if entropy < W then .stuck .nontermination else .returned result rd
  | fuel + 1, entropy, result, rd =>
    if entropy < W then
      match rd.invoke with
      | (none, rd1) => .threw result rd1
      | (some d, rd1) =>
        let result1 :=
          if rd_bits < W then ((result <<< rd_bits) % 2 ^ W) ||| (d % 2 ^ W)
          else result ||| (d % 2 ^ W)
        sane_loop W rd_bits fuel (entropy + rd_bits) result1 rd1
    else .returned result rd

/-- The sane branch of `operator()`.  The loop makes at most `result_bits` iterations
when `rd_bits >= 1`, and that is the bound given to `sane_loop`. -/
def sane_extract (cfg : config) (rd : random_device) : extraction :=
  sane_loop cfg.result_bits (lower_bound_entropy_bits cfg.rd_max) cfg.result_bits 0 0 rd

/-- The value of `static_cast<int>(std::ceil(result_bits() / mpt::log2(rd_size)))` in
exact arithmetic: the least `n` with `n * log2 rd_size >= W`, that is with
`2 ^ W <= rd_size ^ n`.  For `rd_size <= 1` the quotient is not a number of
iterations. -/
def insane_iterations (W rd_size : Nat) : Option Nat :=
  if rd_size ≤ 1 then none else some (Nat.clog rd_size (2 ^ W))

/-- The accumulation loop of the insane branch,
`tmp = (tmp * rd_size) + (static_cast<double>((*prd)()) - rd_min)`, with `n`
iterations left. -/
def insane_loop (rd_size rd_min : ℚ) : Nat → ℚ → random_device → Option ℚ × random_device
  | 0, tmp, rd => (some tmp, rd)
  | n + 1, tmp, rd =>
    match rd.invoke with
    | (none, rd1) => (none, rd1)
    | (some d, rd1) => insane_loop rd_size rd_min n (tmp * rd_size + ((d : ℚ) - rd_min)) rd1

/-- The last two statements of the insane branch: `result_01` and the final
`result`, for the accumulated `tmp` and the iteration count. -/
def insane_result (cfg : config) (rd_size : ℚ) (iterations : Nat) (tmp : ℚ) : Nat :=
  let result_01 : ℚ := (⌊tmp / rd_size ^ iterations⌋ : ℤ)
  let scaled : ℤ := ⌊result_01 * (((cfg.max - cfg.min : Nat) : ℚ) + 1)⌋
  ((scaled % 2 ^ cfg.result_bits).toNat + cfg.min) % 2 ^ cfg.result_bits

/-- The insane branch run for a given number of iterations. -/
def insane_extract_with (cfg : config) (iterations : Nat) (rd : random_device) : extraction :=
  let rd_min : ℚ := cfg.rd_min
  let rd_max : ℚ := cfg.rd_max
  let rd_range : ℚ := rd_max - rd_min
  let rd_size : ℚ := rd_range + 1
  match insane_loop rd_size rd_min iterations 0 rd with
  | (none, rd1) => .threw 0 rd1
  | (some tmp, rd1) => .returned (insane_result cfg rd_size iterations tmp) rd1

/-- The insane branch of `operator()`. -/
def insane_extract (cfg : config) (rd : random_device) : extraction :=
  match insane_iterations cfg.result_bits (cfg.rd_max - cfg.rd_min + 1) with
  | none => .stuck .no_iteration_count
  | some iterations => insane_extract_with cfg iterations rd

/-- The body of the `try` block: the `if constexpr` that selects the branch. -/
def extract (cfg : config) (rd : random_device) : extraction :=
  if cfg.rd_min != 0 || !is_mask cfg.uint_bits cfg.rd_max then insane_extract cfg rd
  else sane_extract cfg rd

/-! ## `init_fallback` -/

/-- The loop `for(i = 0; i < token.length(); ++i) seeds.push_back(...)`: one word per
`char`, each converted by `static_cast<unsigned int>(static_cast<unsigned char>(c))`. -/
def push_token (seeds : List Nat) (token : List Int) : List Nat :=
  token.foldl (fun acc c => acc ++ [(c % 256).toNat]) seeds

/-- The seed words that `init_fallback` hands to `std::seed_seq`, for the value
`seed_val` returned by `mpt::generate_timeseed<uint64>()`.  Both branches of
`if(token.length() > 0)` are kept. -/
def init_fallback_seeds (token : List Int) (seed_val : Nat) : List Nat :=
  if token.length > 0 then
    push_token [(seed_val >>> 32) % 2 ^ 32, (seed_val >>> 0) % 2 ^ 32] token
  else
    [(seed_val >>> 32) % 2 ^ 32, (seed_val >>> 0) % 2 ^ 32]

/-- The member function `init_fallback`; `seed_val` is what
`mpt::generate_timeseed<uint64>()` returns if it is called now. -/
def init_fallback (eng : fallback_engine) (seed_val : Nat)
    (s : sane_random_device eng.G) : sane_random_device eng.G :=
  match s.rd_fallback with
  | some _ => s
  | none => { s with rd_fallback := some (eng.seed_seq (init_fallback_seeds s.token seed_val)) }

/-! ## Constructors -/

/-- The common body of the two constructors after the member initialisers: `made` is
the outcome of `std::make_unique<std::random_device>(...)`, `entropy rd` the outcome
of `(*prd).entropy()`.  An `out_of_memory` is rethrown by `mpt::rethrow_out_of_memory`,
every other exception is caught. -/
def construct (eng : fallback_engine) (token : List Int)
    (made : Except exception random_device)
    (entropy : random_device → Except exception ℚ) (seed_val : Nat) :
    Except exception (sane_random_device eng.G) :=
  let s0 : sane_random_device eng.G :=
    { token := token, prd := none, rd_reliable := false, rd_fallback := none }
  let tried : Except exception (sane_random_device eng.G) :=
    match made with
    | .error .out_of_memory => .error .out_of_memory
    | .error .std_exception => .ok { s0 with rd_reliable := false }
    | .ok rd =>
      match entropy rd with
      | .error .out_of_memory => .error .out_of_memory
      | .error .std_exception => .ok { s0 with prd := some rd, rd_reliable := false }
      | .ok e => .ok { s0 with prd := some rd, rd_reliable := decide (e > 0) }
  match tried with
  | .error e => .error e
  | .ok s => .ok (if !s.rd_reliable then init_fallback eng seed_val s else s)

/-- The constructor `sane_random_device()`: the token is empty. -/
def sane_random_device.new (eng : fallback_engine)
    (made : Except exception random_device)
    (entropy : random_device → Except exception ℚ) (seed_val : Nat) :
    Except exception (sane_random_device eng.G) :=
  construct eng [] made entropy seed_val

/-- The constructor `sane_random_device(const std::string & token_)`: the native
source is created from the token. -/
def sane_random_device.new_token (eng : fallback_engine) (token_ : List Int)
    (made : List Int → Except exception random_device)
    (entropy : random_device → Except exception ℚ) (seed_val : Nat) :
    Except exception (sane_random_device eng.G) :=
  construct eng token_ (made token_) entropy seed_val

/-! ## `operator()` -/

/-- The tail of `operator()`: `if(!rd_reliable) result ^= mpt::random<result_type>(*rd_fallback);`
followed by `return result;`. -/
def xor_fallback (eng : fallback_engine) (result : Nat) (s : sane_random_device eng.G) :
    Except fault (Nat × sane_random_device eng.G) :=
  if !s.rd_reliable then
    match s.rd_fallback with
    | none => .error .null_fallback
    | some g => .ok (result ^^^ (eng.random g).1, { s with rd_fallback := some (eng.random g).2 })
  else .ok (result, s)

/-- The member function `operator()`; `seed_val` is what
`mpt::generate_timeseed<uint64>()` returns if `init_fallback` calls it during this draw. -/
def operator_call (cfg : config) (eng : fallback_engine) (seed_val : Nat)
    (s : sane_random_device eng.G) : Except fault (Nat × sane_random_device eng.G) :=
  match s.prd with
  | some rd =>
    match extract cfg rd with
    | .returned result rd1 => xor_fallback eng result { s with prd := some rd1 }
    | .threw result rd1 =>
      xor_fallback eng result
        (init_fallback eng seed_val { s with prd := some rd1, rd_reliable := false })
    | .stuck f => .error f
  | none => xor_fallback eng 0 { s with rd_reliable := false }

/-- A sequence of calls of `operator()`, one per element of `seed_vals` (the time
seed available at each call); the values returned and the final device. -/
def draw_sequence (cfg : config) (eng : fallback_engine) :
    List Nat → sane_random_device eng.G → Except fault (List Nat × sane_random_device eng.G)
  | [], s => .ok ([], s)
  | seed_val :: rest, s =>
    match operator_call cfg eng seed_val s with
    | .error f => .error f
    | .ok (v, s1) =>
      match draw_sequence cfg eng rest s1 with
      | .error f => .error f
      | .ok (vs, s2) => .ok (v :: vs, s2)

/-! ## Observations on devices -/

/-- The number of invocations of the primary source made through this device so far
(0 when there is no primary source). -/
def primary_calls {G : Type} (s : sane_random_device G) : Nat :=
  match s.prd with
  | some rd => rd.calls
  | none => 0

/-- The state invariant of a constructed device: an unreliable device has its
fallback generator, and a device without primary source is unreliable. -/
def invariant {G : Type} (s : sane_random_device G) : Prop :=
  (s.rd_reliable = false → s.rd_fallback.isSome = true) ∧
  (s.prd.isSome = false → s.rd_reliable = false)

/-- Whether some invocation of the primary source throws during the extraction that
a draw on `s` performs. -/
def primary_failed (cfg : config) {G : Type} (s : sane_random_device G) : Bool :=
  match s.prd with
  | some rd =>
    match extract cfg rd with
    | .threw _ _ => true
    | _ => false
  | none => false

/-- The value of a draw, if it returned. -/
def draw_value {G : Type} : Except fault (Nat × sane_random_device G) → Option Nat
  | .ok (v, _) => some v
  | .error _ => none

/-- The device after a draw, if it returned. -/
def draw_state {G : Type} : Except fault (Nat × sane_random_device G) → Option (sane_random_device G)
  | .ok (_, s) => some s
  | .error _ => none

/-! ## Concrete sources, engines and configurations used in examples -/

/-- A primary source whose successive invocations have the listed outcomes, and
throw once the list is exhausted. -/
def scripted (l : List (Option Nat)) : random_device :=
  { outcomes := fun i => l.getD i none, calls := 0 }

/-- A toy fallback engine: the generator state is a number, seeded with the sum of
the seed words plus 1000; a draw returns the state and increments it. -/
def counter_engine : fallback_engine :=
  { G := Nat, seed_seq := fun seeds => seeds.sum + 1000, random := fun g => (g, g + 1) }

/-- A sane source as on common platforms: 32-bit raw values, 32-bit results. -/
def cfg32 : config := { uint_bits := 32, rd_min := 0, rd_max := 4294967295, result_bits := 32 }

/-- A sane source of 16-bit raw values with 32-bit results: two raw draws per result. -/
def cfg16 : config := { uint_bits := 32, rd_min := 0, rd_max := 65535, result_bits := 32 }

/-- A sane source of 4-bit raw values with 8-bit results: two raw draws per result. -/
def cfg4 : config := { uint_bits := 8, rd_min := 0, rd_max := 15, result_bits := 8 }

/-- An insane source with raw range `[0, 9]` and 8-bit results. -/
def cfg10 : config := { uint_bits := 32, rd_min := 0, rd_max := 9, result_bits := 8 }

/-! ## `generate_timeseed` and the seeders -/

/-- An external checksum class of `mptCRC.h`: the freshly constructed object, the call
`hash(begin, end)` on a range of bytes, and `hash.result()`. -/
structure checksum where
  S : Type
  init : S
  process : S → List Nat → S
  result : S → Nat

/-- The three checksum classes named by `default_hash`. -/
structure checksums where
  crc16 : checksum
  crc32c : checksum
  crc64_jones : checksum

/-- The four result types for which `default_hash` is specialised. -/
inductive seed_type where
  | uint8
  | uint16
  | uint32
  | uint64
deriving DecidableEq, Repr

/-- The width `sizeof(T) * 8` of a seed type. -/
def seed_type.bits : seed_type → Nat
  | .uint8 => 8
  | .uint16 => 16
  | .uint32 => 32
  | .uint64 => 64

/-- The specialisations of `default_hash<T>::type`. -/
def default_hash (c : checksums) : seed_type → checksum
  | .uint8 => c.crc16
  | .uint16 => c.crc16
  | .uint32 => c.crc32c
  | .uint64 => c.crc64_jones

/-- The bytes of a `uint64be` holding the nanosecond count `t`: the count converted to
`uint64`, most significant byte first. -/
def uint64be_bytes (t : Int) : List Nat :=
  let u : Nat := (t % 2 ^ 64).toNat
  [(u >>> 56) % 256, (u >>> 48) % 256, (u >>> 40) % 256, (u >>> 32) % 256,
   (u >>> 24) % 256, (u >>> 16) % 256, (u >>> 8) % 256, (u >>> 0) % 256]

/-- The function `generate_timeseed<T>`, for the readings `system_now` of
`std::chrono::system_clock` and `hires_now` of `std::chrono::high_resolution_clock`
(nanoseconds since the epoch). -/
def generate_timeseed (c : checksums) (T : seed_type) (system_now hires_now : Int) : Nat :=
  let h := default_hash c T
  let hash0 := h.init
  let hash1 := h.process hash0 (uint64be_bytes system_now)
  let hash2 := h.process hash1 (uint64be_bytes hires_now)
  h.result hash2 % 2 ^ T.bits

/-- The member `prng_random_device_time_seeder::generate_seed8`. -/
def generate_seed8 (c : checksums) (system_now hires_now : Int) : Nat :=
  generate_timeseed c .uint8 system_now hires_now

/-- The member `prng_random_device_time_seeder::generate_seed16`. -/
def generate_seed16 (c : checksums) (system_now hires_now : Int) : Nat :=
  generate_timeseed c .uint16 system_now hires_now

/-- The member `prng_random_device_time_seeder::generate_seed32`. -/
def generate_seed32 (c : checksums) (system_now hires_now : Int) : Nat :=
  generate_timeseed c .uint32 system_now hires_now

/-- The member `prng_random_device_time_seeder::generate_seed64`. -/
def generate_seed64 (c : checksums) (system_now hires_now : Int) : Nat :=
  generate_timeseed c .uint64 system_now hires_now

/-! ## The global provider in injection mode -/

/-- The two file-scope pointers `g_rd` and `g_global_prng` of the branch
`MODPLUG_TRACKER && !MPT_BUILD_WINESUPPORT`.  A pointer is `none` (`nullptr`) or the
identity of the object it points to. -/
structure globals (RD PRNG : Type) where
  g_rd : Option RD
  g_global_prng : Option PRNG

/-- The static initialisers `g_rd = nullptr` and `g_global_prng = nullptr`. -/
def globals.start (RD PRNG : Type) : globals RD PRNG :=
  { g_rd := none, g_global_prng := none }

/-- The function `set_global_random_device`. -/
def set_global_random_device {RD PRNG : Type} (rd : Option RD) (g : globals RD PRNG) :
    globals RD PRNG :=
  { g with g_rd := rd }

/-- The function `set_global_prng`. -/
def set_global_prng {RD PRNG : Type} (prng : Option PRNG) (g : globals RD PRNG) :
    globals RD PRNG :=
  { g with g_global_prng := prng }

/-- The function `global_random_device`: the object `*g_rd` that is returned (`none`
when the pointer is null and the dereference has no defined result), and the state
afterwards. -/
def global_random_device {RD PRNG : Type} (g : globals RD PRNG) :
    Option RD × globals RD PRNG :=
  (g.g_rd, g)

/-- The function `global_prng`: the object `*g_global_prng` that is returned, and the
state afterwards. -/
def global_prng {RD PRNG : Type} (g : globals RD PRNG) : Option PRNG × globals RD PRNG :=
  (g.g_global_prng, g)

/-! ## Auxiliary notions used in the statements -/

/-- The device after `m` further invocations. -/
def random_device.advance (rd : random_device) (m : Nat) : random_device :=
  { rd with calls := rd.calls + m }

/-- Whether the next invocations of the device succeed with the values `ds`, in this
order. -/
def yields : List Nat → random_device → Bool
  | [], _ => true
  | d :: ds, rd => rd.invoke.1 == some d && yields ds rd.invoke.2

/-- Whether the next `m` invocations of the device all succeed. -/
def succeeds : Nat → random_device → Bool
  | 0, _ => true
  | m + 1, rd => rd.invoke.1.isSome && succeeds m rd.invoke.2

/-- The number of invocations a run of the `try` block has made on the device:
the counter of the device it ends with, minus the counter at the start. -/
def extraction.draws (rd : random_device) : extraction → Option Nat
  | .returned _ rd1 => some (rd1.calls - rd.calls)
  | .threw _ rd1 => some (rd1.calls - rd.calls)
  | .stuck _ => none

/-- The quotient `W / k` rounded up. -/
def ceil_div (W k : Nat) : Nat := (W + k - 1) / k

/-- One pass through the loop body of the sane branch when `rd_bits < W`:
`(result << rd_bits) | draw` in a type of `W` bits. -/
def shift_or (W rd_bits result d : Nat) : Nat :=
  ((result <<< rd_bits) % 2 ^ W) ||| (d % 2 ^ W)

/-- The big-endian concatenation of chunks of `k` bits, as the specification writes
it: the sum of `d_i * 2 ^ (k * (n - 1 - i))` over the `n` chunks. -/
def spec_concat_be (k : Nat) : List Nat → Nat
  | [] => 0
  | d :: ds => d * 2 ^ (k * ds.length) + spec_concat_be k ds

/-- The combination of the raw draws on the fast path as the specification words it
for `k` not dividing `W`: every draw but the last is shifted in, and the last is
OR-ed into the running result without a shift. -/
def spec_last_unshifted (W k : Nat) : Nat → List Nat → Nat
  | result, [] => result
  | result, [d] => result ||| (d % 2 ^ W)
  | result, d :: d1 :: ds => spec_last_unshifted W k (shift_or W k result d) (d1 :: ds)

/-- The value of the mixed-radix numeral with the digits `d - rd_min` in base
`rd_size`, most significant digit first, as the specification writes the accumulator. -/
def spec_mixed_radix (rd_size rd_min : Nat) : List Nat → Nat
  | [] => 0
  | d :: ds => (d - rd_min) * rd_size ^ ds.length + spec_mixed_radix rd_size rd_min ds

/-- The result of the general path as the specification writes it, in exact
arithmetic: `floor (floor (acc / size ^ n) * (MAX - MIN + 1)) + MIN`. -/
def spec_insane_value (cfg : config) (rd_size n acc : Nat) : Nat :=
  (acc / rd_size ^ n) * (cfg.max - cfg.min + 1) + cfg.min

/-- A sane source of 3-bit raw values with 8-bit results: the chunk width does not
divide the result width. -/
def cfg3 : config := { uint_bits := 8, rd_min := 0, rd_max := 7, result_bits := 8 }

/-- A device with the given primary source, reliable, without fallback generator. -/
def reliable_device (rd : random_device) : sane_random_device Nat :=
  { token := [], prd := some rd, rd_reliable := true, rd_fallback := none }

/-- The constants describe a platform: `unsigned int` has at least one bit and holds
`std::random_device::max()`, the raw range has `min() < max()` as the C++ standard
requires of a uniform random bit generator, and the result type has at least one bit. -/
def config.valid (cfg : config) : Prop :=
  0 < cfg.uint_bits ∧ cfg.rd_min < cfg.rd_max ∧ cfg.rd_max < 2 ^ cfg.uint_bits ∧
    0 < cfg.result_bits

/-- A device with the given primary source, unreliable, with the fallback generator
in state `g`. -/
def unreliable_device (rd : random_device) (g : Nat) : sane_random_device Nat :=
  { token := [], prd := some rd, rd_reliable := false, rd_fallback := some g }

/-! # Properties -/

theorem lbeb_mask (k : Nat) : lower_bound_entropy_bits (2 ^ k - 1) = k := by
  unfold lower_bound_entropy_bits
  rw [Nat.sub_add_cancel Nat.one_le_two_pow, Nat.log2_two_pow]

theorem advance_zero (rd : random_device) : rd.advance 0 = rd := by
  cases rd; rfl

theorem advance_invoke (rd : random_device) (m : Nat) :
    rd.invoke.2.advance m = rd.advance (m + 1) := by
  cases rd; simp [random_device.invoke, random_device.advance]; omega

/-- When the next invocations succeed with the values `ds`, one per remaining
iteration, the loop of the sane branch returns the fold of its body over `ds`. -/
theorem sane_loop_returned (W k : Nat) (ds : List Nat) :
    ∀ (fuel entropy result : Nat) (rd : random_device),
      yields ds rd = true → ds.length ≤ fuel → W ≤ entropy + ds.length * k →
      (∀ i, i < ds.length → entropy + i * k < W) →
      sane_loop W k fuel entropy result rd =
        .returned
          (ds.foldl (fun r d => if k < W then shift_or W k r d else r ||| (d % 2 ^ W)) result)
          (rd.advance ds.length) := by
  induction ds with
  | nil =>
    intro fuel entropy result rd _ _ hW _
    have hW' : ¬ entropy < W := by simpa using hW
    cases fuel <;> simp [sane_loop, hW', advance_zero]
  | cons d ds ih =>
    intro fuel entropy result rd hy hf hW hlt
    obtain ⟨f, rfl⟩ : ∃ f, fuel = f + 1 := ⟨fuel - 1, by simp at hf; omega⟩
    have h0 : entropy < W := by simpa using hlt 0 (by simp)
    simp only [yields, Bool.and_eq_true, beq_iff_eq] at hy
    obtain ⟨hy1, hy2⟩ := hy
    rcases hinv : rd.invoke with ⟨o, rd1⟩
    rw [hinv] at hy1 hy2
    simp only at hy1 hy2
    subst hy1
    have := ih f (entropy + k) (if k < W then shift_or W k result d else result ||| (d % 2 ^ W))
      rd1 hy2 (by simpa using hf) (by simp at hW; linarith)
      (fun i hi => by have := hlt (i + 1) (by simpa using hi); linarith)
    have hadv : rd1.advance ds.length = rd.advance (ds.length + 1) := by
      have := advance_invoke rd ds.length
      rw [hinv] at this; exact this
    simp only [sane_loop, h0, if_true, hinv, List.foldl_cons, List.length_cons]
    rw [← hadv, ← this]
    by_cases hk : k < W <;> simp [hk, shift_or]

theorem shift_or_mod (W k acc d : Nat) (hk : k ≤ W) (hd : d < 2 ^ k) :
    shift_or W k (acc % 2 ^ W) d = (acc * 2 ^ k + d) % 2 ^ W := by
  obtain ⟨j, rfl⟩ : ∃ j, W = k + j := ⟨W - k, by omega⟩
  have hdW : d % 2 ^ (k + j) = d :=
    Nat.mod_eq_of_lt (lt_of_lt_of_le hd (Nat.pow_le_pow_right (by norm_num) (by omega)))
  have h1 : ((acc % 2 ^ (k + j)) * 2 ^ k) % 2 ^ (k + j) = 2 ^ k * (acc % 2 ^ j) := by
    rw [Nat.mod_mul_mod, pow_add, Nat.mul_comm acc, Nat.mul_mod_mul_left]
  have h2 : (acc * 2 ^ k + d) % 2 ^ (k + j) = 2 ^ k * (acc % 2 ^ j) + d := by
    rw [pow_add, Nat.mod_mul, Nat.mul_comm acc, Nat.mul_add_mod, Nat.mod_eq_of_lt hd,
      Nat.mul_add_div (by positivity), Nat.div_eq_of_lt hd]
    simp [Nat.add_comm]
  unfold shift_or
  rw [Nat.shiftLeft_eq, h1, hdW, h2, Nat.mul_add_lt_is_or hd]

theorem foldl_radix (b : Nat) (ds : List Nat) :
    ∀ a : Nat, ds.foldl (fun t d => t * b + d) a
      = a * b ^ ds.length + spec_mixed_radix b 0 ds := by
  induction ds with
  | nil => intro a; simp [spec_mixed_radix]
  | cons d ds ih =>
    intro a
    simp only [List.foldl_cons, ih, spec_mixed_radix, List.length_cons, Nat.sub_zero]
    ring

theorem spec_concat_be_eq (k : Nat) (ds : List Nat) :
    spec_concat_be k ds = spec_mixed_radix (2 ^ k) 0 ds := by
  induction ds with
  | nil => rfl
  | cons d ds ih => simp [spec_concat_be, spec_mixed_radix, ih, pow_mul]

theorem foldl_shift_or (W k : Nat) (hk : k ≤ W) (ds : List Nat) (hds : ∀ d ∈ ds, d < 2 ^ k) :
    ∀ a : Nat, ds.foldl (shift_or W k) (a % 2 ^ W)
      = (ds.foldl (fun t d => t * 2 ^ k + d) a) % 2 ^ W := by
  induction ds with
  | nil => intro a; rfl
  | cons d ds ih =>
    intro a
    simp only [List.foldl_cons]
    rw [shift_or_mod W k a d hk (hds d (by simp))]
    exact ih (fun x hx => hds x (by simp [hx])) _

theorem mixed_radix_lt (b m : Nat) (ds : List Nat) (h : ∀ d ∈ ds, d - m < b) :
    spec_mixed_radix b m ds < b ^ ds.length := by
  induction ds with
  | nil => simp [spec_mixed_radix]
  | cons d ds ih =>
    have h1 := ih (fun x hx => h x (by simp [hx]))
    have h2 : d - m + 1 ≤ b := h d (by simp)
    simp only [spec_mixed_radix, List.length_cons, pow_succ]
    calc (d - m) * b ^ ds.length + spec_mixed_radix b m ds
        < (d - m) * b ^ ds.length + b ^ ds.length := by omega
      _ = (d - m + 1) * b ^ ds.length := by ring
      _ ≤ b * b ^ ds.length := Nat.mul_le_mul_right _ h2
      _ = b ^ ds.length * b := by ring

theorem mixed_radix_inj (b m : Nat) (ds1 : List Nat) :
    ∀ ds2 : List Nat, ds1.length = ds2.length →
      (∀ d ∈ ds1, m ≤ d ∧ d - m < b) → (∀ d ∈ ds2, m ≤ d ∧ d - m < b) →
      spec_mixed_radix b m ds1 = spec_mixed_radix b m ds2 → ds1 = ds2 := by
  induction ds1 with
  | nil => intro ds2 hl _ _ _; cases ds2 <;> simp_all
  | cons d ds ih =>
    intro ds2 hl h1 h2 he
    cases ds2 with
    | nil => simp at hl
    | cons e es =>
      simp only [List.length_cons, add_left_inj] at hl
      have r1 := mixed_radix_lt b m ds (fun x hx => (h1 x (by simp [hx])).2)
      have r2 := mixed_radix_lt b m es (fun x hx => (h2 x (by simp [hx])).2)
      simp only [spec_mixed_radix] at he
      rw [← hl] at he r2
      have hpos : 0 < b ^ ds.length := by omega
      have hq : d - m = e - m := by
        have he' : spec_mixed_radix b m ds + (d - m) * b ^ ds.length
            = spec_mixed_radix b m es + (e - m) * b ^ ds.length := by omega
        have := congrArg (· / b ^ ds.length) he'
        simpa only [Nat.add_mul_div_right _ _ hpos, Nat.div_eq_of_lt r1,
          Nat.div_eq_of_lt r2, zero_add] using this
      have hr : spec_mixed_radix b m ds = spec_mixed_radix b m es := by
        rw [hq] at he; omega
      have hd : d = e := by
        have := (h1 d (by simp)).1
        have := (h2 e (by simp)).1
        omega
      rw [hd, ih es hl (fun x hx => h1 x (by simp [hx])) (fun x hx => h2 x (by simp [hx])) hr]

theorem mixed_radix_surj (b m : Nat) (n : Nat) :
    ∀ v : Nat, v < b ^ n →
      ∃ ds : List Nat, ds.length = n ∧ (∀ d ∈ ds, m ≤ d ∧ d - m < b) ∧
        spec_mixed_radix b m ds = v := by
  induction n with
  | zero => intro v hv; exact ⟨[], rfl, by simp, by simp at hv; simp [spec_mixed_radix, hv]⟩
  | succ n ih =>
    intro v hv
    have hpos : 0 < b ^ n := by
      rcases Nat.eq_zero_or_pos (b ^ n) with h | h
      · rw [pow_succ, h] at hv; simp at hv
      · exact h
    obtain ⟨ds, hl, hr, hv'⟩ := ih (v % b ^ n) (Nat.mod_lt _ hpos)
    refine ⟨(v / b ^ n + m) :: ds, by simp [hl], ?_, ?_⟩
    · intro d hd
      rcases List.mem_cons.1 hd with rfl | hd
      · refine ⟨Nat.le_add_left _ _, ?_⟩
        simp only [Nat.add_sub_cancel]
        rw [Nat.div_lt_iff_lt_mul hpos]; rw [pow_succ] at hv; linarith
      · exact hr d hd
    · simp only [spec_mixed_radix, Nat.add_sub_cancel, hl, hv']
      rw [Nat.mul_comm]; exact Nat.div_add_mod _ _

theorem uint64be_bytes_value (t : Int) :
    spec_mixed_radix 256 0 (uint64be_bytes t) = (t % 2 ^ 64).toNat := by
  have hu : (t % 2 ^ 64).toNat < 2 ^ 64 := by
    have h1 : 0 ≤ t % 2 ^ 64 := Int.emod_nonneg _ (by norm_num)
    have h2 : t % 2 ^ 64 < 2 ^ 64 := Int.emod_lt_of_pos _ (by norm_num)
    omega
  simp only [uint64be_bytes, spec_mixed_radix, Nat.shiftRight_eq_div_pow, List.length_cons,
    List.length_nil, Nat.sub_zero]
  generalize (t % 2 ^ 64).toNat = u at hu ⊢
  norm_num at hu ⊢
  omega

/-- C12: in injection mode, on the explicit state `(g_rd, g_global_prng)`: after
`set_global_random_device rd` the accessor `global_random_device` returns exactly `rd`,
after `set_global_prng p` the accessor `global_prng` returns exactly `p`; each setter
leaves the other registration (and what the other accessor returns) unchanged; the
accessors return the state they were given, and with nothing registered they return
no object, so they construct none. -/
theorem C12_injection_round_trip {RD PRNG : Type} (g : globals RD PRNG) (rd : Option RD)
    (p : Option PRNG) :
    (global_random_device (set_global_random_device rd g)).1 = rd ∧
    (global_prng (set_global_prng p g)).1 = p ∧
    (set_global_random_device rd g).g_global_prng = g.g_global_prng ∧
    (set_global_prng p g).g_rd = g.g_rd ∧
    (global_prng (set_global_random_device rd g)).1 = (global_prng g).1 ∧
    (global_random_device (set_global_prng p g)).1 = (global_random_device g).1 ∧
    (global_random_device g).2 = g ∧ (global_prng g).2 = g ∧
    (global_random_device (globals.start RD PRNG)).1 = none ∧
    (global_prng (globals.start RD PRNG)).1 = none :=
  ⟨rfl, rfl, rfl, rfl, rfl, rfl, rfl, rfl, rfl, rfl⟩

/-- C18: `generate_timeseed` is the digest, truncated to the width of the seed type, of
the width-selected hash started fresh and fed first the 8 big-endian bytes of the
wall-clock count and then the 8 big-endian bytes of the high-resolution count; it is
a function of the two readings (taken modulo `2 ^ 64`) and of that hash; and
`generate_seed8` equals `generate_seed16` modulo 256, both using `crc16`. -/
theorem C18_timeseed_deterministic (c : checksums) (T : seed_type) (system_now hires_now : Int) :
    generate_timeseed c T system_now hires_now
      = (default_hash c T).result
          ((default_hash c T).process
            ((default_hash c T).process (default_hash c T).init (uint64be_bytes system_now))
            (uint64be_bytes hires_now)) % 2 ^ T.bits ∧
    (uint64be_bytes system_now).length = 8 ∧
    (∀ b ∈ uint64be_bytes system_now, b < 256) ∧
    spec_mixed_radix 256 0 (uint64be_bytes system_now) = (system_now % 2 ^ 64).toNat ∧
    (∀ s h : Int, s % 2 ^ 64 = system_now % 2 ^ 64 → h % 2 ^ 64 = hires_now % 2 ^ 64 →
      generate_timeseed c T s h = generate_timeseed c T system_now hires_now) ∧
    default_hash c .uint8 = c.crc16 ∧ default_hash c .uint16 = c.crc16 ∧
    default_hash c .uint32 = c.crc32c ∧ default_hash c .uint64 = c.crc64_jones ∧
    generate_seed8 c system_now hires_now = generate_seed16 c system_now hires_now % 256 := by
  refine ⟨rfl, rfl, ?_, uint64be_bytes_value _, ?_, rfl, rfl, rfl, rfl, ?_⟩
  · intro b hb
    simp only [uint64be_bytes, List.mem_cons, List.mem_singleton, List.not_mem_nil,
      or_false] at hb
    rcases hb with h | h | h | h | h | h | h | h <;> rw [h] <;> exact Nat.mod_lt _ (by norm_num)
  · intro s h hs hh
    simp only [generate_timeseed, uint64be_bytes, hs, hh]
  · simp only [generate_seed8, generate_seed16, generate_timeseed, default_hash, seed_type.bits]
    rw [Nat.mod_mod_of_dvd _ (by norm_num : (256 : Nat) ∣ 2 ^ 16)]
    norm_num

theorem mask_step (w i : Nat) :
    ((((2 ^ i - 1) % 2 ^ w) <<< 1) ||| 1) % 2 ^ w = (2 ^ (i + 1) - 1) % 2 ^ w := by
  have h1 : ∀ m : Nat, (m <<< 1) ||| 1 = 2 * m + 1 := by
    intro m
    rw [Nat.shiftLeft_eq, Nat.mul_comm]
    exact (Nat.mul_add_lt_is_or (by norm_num : 1 < 2 ^ 1) m).symm
  have h2 : 2 ^ (i + 1) - 1 = 2 * (2 ^ i - 1) + 1 := by
    have := Nat.one_le_two_pow (n := i)
    rw [pow_succ]; omega
  rw [h1, h2, Nat.add_mod, Nat.mul_mod, Nat.mod_mod, ← Nat.mul_mod, ← Nat.add_mod]

theorem is_mask_loop_iff (w ux : Nat) (n : Nat) :
    ∀ i : Nat, is_mask_loop w ux n ((2 ^ i - 1) % 2 ^ w) = true ↔
      ∃ j, i < j ∧ j ≤ i + n ∧ ux = (2 ^ j - 1) % 2 ^ w := by
  induction n with
  | zero => intro i; simp [is_mask_loop]; intro j hj hj'; omega
  | succ n ih =>
    intro i
    simp only [is_mask_loop, mask_step]
    by_cases h : ux = (2 ^ (i + 1) - 1) % 2 ^ w
    · simp only [h, if_true, true_iff]
      exact ⟨i + 1, by omega, by omega, rfl⟩
    · simp only [h, if_false, ih (i + 1)]
      constructor
      · rintro ⟨j, h1, h2, h3⟩; exact ⟨j, by omega, by omega, h3⟩
      · rintro ⟨j, h1, h2, h3⟩
        refine ⟨j, ?_, by omega, h3⟩
        rcases Nat.lt_or_ge (i + 1) j with h4 | h4
        · exact h4
        · exact absurd (by rw [h3]; congr 3; omega) h

theorem is_mask_iff (w x : Nat) (hw : 0 < w) (hx : x < 2 ^ w) :
    is_mask w x = true ↔ ∃ n, 1 ≤ n ∧ n ≤ w ∧ x = 2 ^ n - 1 := by
  have h0 := is_mask_loop_iff w (x % 2 ^ w) (w + 1) 0
  simp only [pow_zero, Nat.sub_self, Nat.zero_mod, zero_add] at h0
  unfold is_mask
  rw [h0, Nat.mod_eq_of_lt hx]
  have hlt : ∀ n, n ≤ w → (2 ^ n - 1) % 2 ^ w = 2 ^ n - 1 := by
    intro n hn
    apply Nat.mod_eq_of_lt
    have := Nat.pow_le_pow_right (by norm_num : 0 < 2) hn
    have := Nat.one_le_two_pow (n := n)
    omega
  have htop : (2 ^ (w + 1) - 1) % 2 ^ w = 2 ^ w - 1 := by
    have h1 : 2 ^ (w + 1) - 1 = (2 ^ w - 1) + 2 ^ w := by
      have := Nat.one_le_two_pow (n := w)
      rw [pow_succ]; omega
    rw [h1, Nat.add_mod_right]
    exact hlt w le_rfl
  constructor
  · rintro ⟨j, h1, h2, h3⟩
    rcases Nat.lt_or_ge w j with h4 | h4
    · have : j = w + 1 := by omega
      subst this
      exact ⟨w, hw, le_rfl, by rw [h3, htop]⟩
    · exact ⟨j, h1, h4, by rw [h3, hlt j h4]⟩
  · rintro ⟨n, h1, h2, h3⟩
    exact ⟨n, h1, by omega, by rw [h3, hlt n h2]⟩

theorem sane_loop_threw (W k : Nat) (ds : List Nat) :
    ∀ (fuel entropy result : Nat) (rd : random_device),
      yields ds rd = true → (rd.advance ds.length).invoke.1 = none → ds.length < fuel →
      (∀ i, i ≤ ds.length → entropy + i * k < W) →
      sane_loop W k fuel entropy result rd =
        .threw
          (ds.foldl (fun r d => if k < W then shift_or W k r d else r ||| (d % 2 ^ W)) result)
          (rd.advance (ds.length + 1)) := by
  induction ds with
  | nil =>
    intro fuel entropy result rd _ hn hf hlt
    obtain ⟨f, rfl⟩ : ∃ f, fuel = f + 1 := ⟨fuel - 1, by simp at hf; omega⟩
    have h0 : entropy < W := by simpa using hlt 0 (by simp)
    rw [List.length_nil, advance_zero] at hn
    rcases hinv : rd.invoke with ⟨o, rd1⟩
    rw [hinv] at hn
    simp only at hn
    subst hn
    have hadv : rd1 = rd.advance 1 := by
      have := advance_invoke rd 0
      rw [hinv, advance_zero] at this; exact this
    simp [sane_loop, h0, hinv, hadv]
  | cons d ds ih =>
    intro fuel entropy result rd hy hn hf hlt
    obtain ⟨f, rfl⟩ : ∃ f, fuel = f + 1 := ⟨fuel - 1, by simp at hf; omega⟩
    have h0 : entropy < W := by simpa using hlt 0 (by simp)
    simp only [yields, Bool.and_eq_true, beq_iff_eq] at hy
    obtain ⟨hy1, hy2⟩ := hy
    have hadv : ∀ m, rd.invoke.2.advance m = rd.advance (m + 1) := advance_invoke rd
    rcases hinv : rd.invoke with ⟨o, rd1⟩
    rw [hinv] at hy1 hy2 hadv
    simp only at hy1 hy2 hadv
    subst hy1
    have := ih f (entropy + k) (if k < W then shift_or W k result d else result ||| (d % 2 ^ W))
      rd1 hy2 (by rw [hadv]; exact hn) (by simpa using hf)
      (fun i hi => by have := hlt (i + 1) (by simpa using hi); linarith)
    simp only [sane_loop, h0, if_true, hinv, List.foldl_cons, List.length_cons]
    rw [← hadv, ← this]
    by_cases hk : k < W <;> simp [hk, shift_or]

theorem insane_loop_some (rd_size rd_min : ℚ) (ds : List Nat) :
    ∀ (tmp : ℚ) (rd : random_device), yields ds rd = true →
      insane_loop rd_size rd_min ds.length tmp rd =
        (some (ds.foldl (fun (t : ℚ) (d : Nat) => t * rd_size + ((d : ℚ) - rd_min)) tmp),
          rd.advance ds.length) := by
  induction ds with
  | nil => intro tmp rd _; simp [insane_loop, advance_zero]
  | cons d ds ih =>
    intro tmp rd hy
    simp only [yields, Bool.and_eq_true, beq_iff_eq] at hy
    obtain ⟨hy1, hy2⟩ := hy
    have hadv : ∀ m, rd.invoke.2.advance m = rd.advance (m + 1) := advance_invoke rd
    rcases hinv : rd.invoke with ⟨o, rd1⟩
    rw [hinv] at hy1 hy2 hadv
    simp only at hy1 hy2 hadv
    subst hy1
    simp only [List.length_cons, insane_loop, hinv, List.foldl_cons, ih _ rd1 hy2, hadv]

theorem insane_loop_none (rd_size rd_min : ℚ) (ds : List Nat) :
    ∀ (n : Nat) (tmp : ℚ) (rd : random_device), yields ds rd = true →
      (rd.advance ds.length).invoke.1 = none → ds.length < n →
      insane_loop rd_size rd_min n tmp rd = (none, rd.advance (ds.length + 1)) := by
  induction ds with
  | nil =>
    intro n tmp rd _ hn hlt
    obtain ⟨f, rfl⟩ : ∃ f, n = f + 1 := ⟨n - 1, by simp at hlt; omega⟩
    rw [List.length_nil, advance_zero] at hn
    have hadv : ∀ m, rd.invoke.2.advance m = rd.advance (m + 1) := advance_invoke rd
    rcases hinv : rd.invoke with ⟨o, rd1⟩
    rw [hinv] at hn hadv
    simp only at hn hadv
    subst hn
    simp [insane_loop, hinv, ← hadv, advance_zero]
  | cons d ds ih =>
    intro n tmp rd hy hn hlt
    obtain ⟨f, rfl⟩ : ∃ f, n = f + 1 := ⟨n - 1, by simp at hlt; omega⟩
    simp only [yields, Bool.and_eq_true, beq_iff_eq] at hy
    obtain ⟨hy1, hy2⟩ := hy
    have hadv : ∀ m, rd.invoke.2.advance m = rd.advance (m + 1) := advance_invoke rd
    rcases hinv : rd.invoke with ⟨o, rd1⟩
    rw [hinv] at hy1 hy2 hadv
    simp only at hy1 hy2 hadv
    subst hy1
    simp only [List.length_cons, insane_loop, hinv]
    rw [ih f _ rd1 hy2 (by rw [hadv]; exact hn) (by simpa using hlt), hadv]

/-- A device either succeeds on its next `m` invocations, with some values `ds`, or
succeeds on fewer with the following invocation throwing. -/
theorem yields_or_fails (m : Nat) :
    ∀ rd : random_device,
      (∃ ds, ds.length = m ∧ yields ds rd = true) ∨
      (∃ ds, ds.length < m ∧ yields ds rd = true ∧ (rd.advance ds.length).invoke.1 = none) := by
  induction m with
  | zero => intro rd; exact Or.inl ⟨[], rfl, rfl⟩
  | succ m ih =>
    intro rd
    have hadv : ∀ m, rd.invoke.2.advance m = rd.advance (m + 1) := advance_invoke rd
    rcases ho : rd.invoke.1 with _ | d
    · exact Or.inr ⟨[], by simp, rfl, by rw [List.length_nil, advance_zero]; exact ho⟩
    · rcases ih rd.invoke.2 with ⟨ds, h1, h2⟩ | ⟨ds, h1, h2, h3⟩
      · exact Or.inl ⟨d :: ds, by simp [h1], by simp [yields, ho, h2]⟩
      · refine Or.inr ⟨d :: ds, by simpa using h1, by simp [yields, ho, h2], ?_⟩
        rw [List.length_cons, ← hadv]; exact h3

theorem succeeds_iff (m : Nat) :
    ∀ rd : random_device, succeeds m rd = true ↔ ∃ ds, ds.length = m ∧ yields ds rd = true := by
  induction m with
  | zero => intro rd; exact ⟨fun _ => ⟨[], rfl, rfl⟩, fun _ => rfl⟩
  | succ m ih =>
    intro rd
    simp only [succeeds, Bool.and_eq_true, ih]
    constructor
    · rintro ⟨h1, ds, h2, h3⟩
      obtain ⟨d, hd⟩ := Option.isSome_iff_exists.1 h1
      exact ⟨d :: ds, by simp [h2], by simp [yields, hd, h3]⟩
    · rintro ⟨ds, h1, h2⟩
      cases ds with
      | nil => simp at h1
      | cons d ds =>
        simp only [yields, Bool.and_eq_true, beq_iff_eq] at h2
        exact ⟨by simp [h2.1], ds, by simpa using h1, h2.2⟩

theorem ceil_div_spec (W k : Nat) (hk : 1 ≤ k) :
    W ≤ ceil_div W k * k ∧ (∀ i, i < ceil_div W k → i * k < W) ∧ ceil_div W k ≤ W := by
  unfold ceil_div
  have hk0 : 0 < k := hk
  refine ⟨?_, ?_, ?_⟩
  · by_contra h
    push_neg at h
    have h1 : ((W + k - 1) / k + 1) * k ≤ W + k - 1 := by
      rw [Nat.add_mul]; omega
    have h2 := (Nat.le_div_iff_mul_le hk0).2 h1
    omega
  · intro i hi
    have h1 : (i + 1) * k ≤ W + k - 1 := (Nat.le_div_iff_mul_le hk0).1 hi
    rw [Nat.add_mul] at h1
    omega
  · have h1 : W + k - 1 < (W + 1) * k := by
      have : W ≤ W * k := Nat.le_mul_of_pos_right W hk0
      rw [Nat.add_mul]; omega
    have := (Nat.div_lt_iff_lt_mul hk0).2 h1
    omega

theorem sane_loop_cases (W k fuel : Nat) (hk : 1 ≤ k) (hf : ceil_div W k ≤ fuel)
    (rd : random_device) :
    (∃ ds, ds.length = ceil_div W k ∧ yields ds rd = true ∧
      sane_loop W k fuel 0 0 rd = .returned
        (ds.foldl (fun r d => if k < W then shift_or W k r d else r ||| (d % 2 ^ W)) 0)
        (rd.advance (ceil_div W k))) ∨
    (∃ ds, ds.length < ceil_div W k ∧ yields ds rd = true ∧
      (rd.advance ds.length).invoke.1 = none ∧
      sane_loop W k fuel 0 0 rd = .threw
        (ds.foldl (fun r d => if k < W then shift_or W k r d else r ||| (d % 2 ^ W)) 0)
        (rd.advance (ds.length + 1))) := by
  obtain ⟨h1, h2, _⟩ := ceil_div_spec W k hk
  rcases yields_or_fails (ceil_div W k) rd with ⟨ds, hl, hy⟩ | ⟨ds, hl, hy, hn⟩
  · refine Or.inl ⟨ds, hl, hy, ?_⟩
    rw [← hl]
    exact sane_loop_returned W k ds fuel 0 0 rd hy (by omega) (by rw [hl]; simpa using h1)
      (fun i hi => by rw [hl] at hi; simpa using h2 i hi)
  · refine Or.inr ⟨ds, hl, hy, hn, ?_⟩
    exact sane_loop_threw W k ds fuel 0 0 rd hy hn (by omega)
      (fun i hi => by simpa using h2 i (by omega))

theorem insane_loop_cases (rd_size rd_min : ℚ) (n : Nat) (rd : random_device) :
    (∃ ds, ds.length = n ∧ yields ds rd = true ∧
      insane_loop rd_size rd_min n 0 rd =
        (some (ds.foldl (fun (t : ℚ) (d : Nat) => t * rd_size + ((d : ℚ) - rd_min)) 0),
          rd.advance n)) ∨
    (∃ ds, ds.length < n ∧ yields ds rd = true ∧ (rd.advance ds.length).invoke.1 = none ∧
      insane_loop rd_size rd_min n 0 rd = (none, rd.advance (ds.length + 1))) := by
  rcases yields_or_fails n rd with ⟨ds, hl, hy⟩ | ⟨ds, hl, hy, hn⟩
  · refine Or.inl ⟨ds, hl, hy, ?_⟩
    rw [← hl]; exact insane_loop_some rd_size rd_min ds 0 rd hy
  · exact Or.inr ⟨ds, hl, hy, hn, insane_loop_none rd_size rd_min ds n 0 rd hy hn hl⟩

theorem lbeb_pos_of_is_mask (w x : Nat) (hw : 0 < w) (hx : x < 2 ^ w)
    (h : is_mask w x = true) : 1 ≤ lower_bound_entropy_bits x := by
  obtain ⟨n, h1, _, h3⟩ := (is_mask_iff w x hw hx).1 h
  rw [h3, lbeb_mask]; exact h1

theorem advance_calls (rd : random_device) (m : Nat) : (rd.advance m).calls - rd.calls = m := by
  simp [random_device.advance]

theorem yields_exclusive (ds : List Nat) :
    ∀ (es : List Nat) (rd : random_device), yields ds rd = true → yields es rd = true →
      ds.length < es.length → (rd.advance ds.length).invoke.1 ≠ none := by
  induction ds with
  | nil =>
    intro es rd _ he hl
    cases es with
    | nil => simp at hl
    | cons e es =>
      simp only [yields, Bool.and_eq_true, beq_iff_eq] at he
      rw [List.length_nil, advance_zero, he.1]; simp
  | cons d ds ih =>
    intro es rd hd he hl
    cases es with
    | nil => simp at hl
    | cons e es =>
      simp only [yields, Bool.and_eq_true, beq_iff_eq] at he hd
      have := ih es rd.invoke.2 hd.2 he.2 (by simpa using hl)
      rwa [advance_invoke] at this

theorem succeeds_not_fails (m : Nat) (rd : random_device) (ds : List Nat)
    (hs : succeeds m rd = true) (hy : yields ds rd = true) (hl : ds.length < m) :
    (rd.advance ds.length).invoke.1 ≠ none := by
  obtain ⟨es, hel, hey⟩ := (succeeds_iff m rd).1 hs
  exact yields_exclusive ds es rd hy hey (by omega)

/-- C16: for an unsigned type of `w` bits and every value `x` of it, `is_mask x` holds
exactly when `x = 2 ^ n - 1` for some `1 <= n <= w`, and `is_mask 0` is false; hence the
condition of the `if constexpr` selects the sane branch exactly when the raw range is
`[0, 2 ^ k - 1]` for some `k >= 1`, and the insane branch in every other case. -/
theorem C16_path_selection (w x : Nat) (cfg : config) (rd : random_device)
    (hw : 0 < w) (hx : x < 2 ^ w)
    (hcw : 0 < cfg.uint_bits) (hmax : cfg.rd_max < 2 ^ cfg.uint_bits) :
    (is_mask w x = true ↔ ∃ n, 1 ≤ n ∧ n ≤ w ∧ x = 2 ^ n - 1) ∧
    is_mask w 0 = false ∧
    ((cfg.rd_min = 0 ∧ ∃ k, 1 ≤ k ∧ k ≤ cfg.uint_bits ∧ cfg.rd_max = 2 ^ k - 1) →
      (cfg.rd_min != 0 || !is_mask cfg.uint_bits cfg.rd_max) = false ∧
      extract cfg rd = sane_extract cfg rd) ∧
    (¬ (cfg.rd_min = 0 ∧ ∃ k, 1 ≤ k ∧ k ≤ cfg.uint_bits ∧ cfg.rd_max = 2 ^ k - 1) →
      (cfg.rd_min != 0 || !is_mask cfg.uint_bits cfg.rd_max) = true ∧
      extract cfg rd = insane_extract cfg rd) := by
  have h0 : is_mask w 0 = false := by
    rw [← Bool.not_eq_true, is_mask_iff w 0 hw (by positivity)]
    rintro ⟨n, h1, _, h3⟩
    have : 2 ^ 1 ≤ 2 ^ n := Nat.pow_le_pow_right (by norm_num) h1
    omega
  have hsel : (cfg.rd_min != 0 || !is_mask cfg.uint_bits cfg.rd_max) = false ↔
      (cfg.rd_min = 0 ∧ ∃ k, 1 ≤ k ∧ k ≤ cfg.uint_bits ∧ cfg.rd_max = 2 ^ k - 1) := by
    rw [← is_mask_iff cfg.uint_bits cfg.rd_max hcw hmax]
    simp
  refine ⟨is_mask_iff w x hw hx, h0, ?_, ?_⟩
  · intro h
    have hc := hsel.2 h
    exact ⟨hc, by simp only [extract, hc]; rfl⟩
  · intro h
    have hc : (cfg.rd_min != 0 || !is_mask cfg.uint_bits cfg.rd_max) = true := by
      rw [← Bool.not_eq_false]; exact fun h' => h (hsel.1 h')
    exact ⟨hc, by simp only [extract, hc]; rfl⟩

/-- A use of C16 on an 8-bit type: 5 is not a mask, and the range `[0, 15]` is sane. -/
theorem C16_path_selection_witness :
    (is_mask 8 5 = true ↔ ∃ n, 1 ≤ n ∧ n ≤ 8 ∧ 5 = 2 ^ n - 1) ∧
    extract cfg4 (scripted []) = sane_extract cfg4 (scripted []) :=
  have h := C16_path_selection 8 5 cfg4 (scripted []) (by decide) (by decide) (by decide)
    (by decide)
  ⟨h.1, (h.2.2.1 ⟨rfl, 4, by decide, by decide, by decide⟩).2⟩

theorem clog_eq_ceil (W size : Nat) (hs : 2 ≤ size) :
    Nat.clog size (2 ^ W) = ⌈(W : ℝ) / Real.logb 2 (size : ℝ)⌉₊ := by
  have hb : 1 < size := hs
  have hsz : (0 : ℝ) < size := by positivity
  have hL : 0 < Real.logb 2 (size : ℝ) :=
    Real.logb_pos (by norm_num) (by exact_mod_cast hb)
  have hpow : ∀ m : Nat, (m : ℝ) * Real.logb 2 (size : ℝ) = Real.logb 2 ((size : ℝ) ^ m) := by
    intro m; rw [Real.logb_pow]
  have hW : (W : ℝ) = Real.logb 2 ((2 : ℝ) ^ W) := by
    rw [Real.logb_pow, Real.logb_self_eq_one (by norm_num), mul_one]
  have hle : ∀ m : Nat, (W : ℝ) / Real.logb 2 (size : ℝ) ≤ m ↔ 2 ^ W ≤ size ^ m := by
    intro m
    rw [div_le_iff₀ hL, hpow, hW, Real.logb_le_logb (by norm_num) (by positivity) (by positivity)]
    exact_mod_cast Iff.rfl
  apply eq_of_forall_ge_iff
  intro m
  rw [Nat.ceil_le, hle, Nat.le_pow_iff_clog_le hb]

/-- C14: on the insane branch, for a raw range of size at least 2 and a result width
`W`, the iteration count is `ceil (W / log2 size)` taken over the reals, it satisfies
`2 ^ W <= size ^ n`, and it is the least such count: no smaller count reaches `2 ^ W`,
in particular `size ^ (n - 1) < 2 ^ W` when `W >= 1`; for a range of size 1 (or 0) the
count is undefined. -/
theorem C14_iteration_count (W size : Nat) (hs : 2 ≤ size) :
    ∃ n, insane_iterations W size = some n ∧
      n = ⌈(W : ℝ) / Real.logb 2 (size : ℝ)⌉₊ ∧
      2 ^ W ≤ size ^ n ∧
      (∀ m, 2 ^ W ≤ size ^ m → n ≤ m) ∧
      (1 ≤ W → 1 ≤ n ∧ size ^ (n - 1) < 2 ^ W) ∧
      insane_iterations W 1 = none ∧ insane_iterations W 0 = none := by
  have hb : 1 < size := hs
  refine ⟨Nat.clog size (2 ^ W), ?_, clog_eq_ceil W size hs, ?_, ?_, ?_, ?_, ?_⟩
  · simp [insane_iterations, Nat.not_le.2 hb]
  · exact (Nat.le_pow_iff_clog_le hb).2 le_rfl
  · intro m hm; exact (Nat.le_pow_iff_clog_le hb).1 hm
  · intro hW
    have h1 : 1 ≤ Nat.clog size (2 ^ W) := by
      apply Nat.clog_pos hb
      calc 2 = 2 ^ 1 := by norm_num
        _ ≤ 2 ^ W := Nat.pow_le_pow_right (by norm_num) hW
    exact ⟨h1, (Nat.pow_lt_iff_lt_clog hb).2 (by omega)⟩
  · simp [insane_iterations]
  · simp [insane_iterations]

/-- A use of C14 on the raw range `[0, 9]` and 8-bit results. -/
theorem C14_iteration_count_witness :
    ∃ n, insane_iterations 8 10 = some n ∧
      n = ⌈((8 : Nat) : ℝ) / Real.logb 2 ((10 : Nat) : ℝ)⌉₊ ∧
      2 ^ 8 ≤ 10 ^ n ∧
      (∀ m, 2 ^ 8 ≤ 10 ^ m → n ≤ m) ∧
      (1 ≤ 8 → 1 ≤ n ∧ 10 ^ (n - 1) < 2 ^ 8) ∧
      insane_iterations 8 1 = none ∧ insane_iterations 8 0 = none :=
  C14_iteration_count 8 10 (by decide)

theorem yields_at (es : List Nat) :
    ∀ (pre : List Nat) (f : Nat → Option Nat),
      (∀ i, i < es.length → f (pre.length + i) = some (es.getD i 0)) →
      yields es { outcomes := f, calls := pre.length } = true := by
  induction es with
  | nil => intro pre f _; rfl
  | cons e es ih =>
    intro pre f hf
    simp only [yields, random_device.invoke, Bool.and_eq_true, beq_iff_eq]
    refine ⟨by simpa using hf 0 (by simp), ?_⟩
    have := ih (pre ++ [e]) f (fun i hi => by
      have := hf (i + 1) (by simpa using hi)
      simp only [List.length_append, List.length_singleton]
      rw [Nat.add_assoc, Nat.add_comm 1 i]
      simpa using this)
    simpa using this

theorem yields_scripted (es : List Nat) : yields es (scripted (es.map some)) = true := by
  have := yields_at es [] (fun i => (es.map some).getD i none) (fun i hi => by
    simp [List.getD_eq_getElem?_getD, List.getElem?_map, List.getElem?_eq_getElem hi])
  simpa [scripted] using this

theorem foldl_mixed_radix (rd_size rd_min : Nat) (ds : List Nat) (hds : ∀ d ∈ ds, rd_min ≤ d) :
    ∀ a : Nat,
      ds.foldl (fun (t : ℚ) (d : Nat) => t * (rd_size : ℚ) + ((d : ℚ) - (rd_min : ℚ))) (a : ℚ)
        = ((a * rd_size ^ ds.length + spec_mixed_radix rd_size rd_min ds : Nat) : ℚ) := by
  induction ds with
  | nil => intro a; simp [spec_mixed_radix]
  | cons d ds ih =>
    intro a
    have hd : rd_min ≤ d := hds d (by simp)
    have h1 : (a : ℚ) * (rd_size : ℚ) + ((d : ℚ) - (rd_min : ℚ))
        = ((a * rd_size + (d - rd_min) : Nat) : ℚ) := by
      push_cast [Nat.cast_sub hd]; ring
    simp only [List.foldl_cons, h1, ih (fun x hx => hds x (by simp [hx])), spec_mixed_radix,
      List.length_cons]
    push_cast
    ring

theorem in_range_iff (rd_min rd_max d : Nat) (hmm : rd_min ≤ rd_max) :
    (rd_min ≤ d ∧ d ≤ rd_max) ↔ (rd_min ≤ d ∧ d - rd_min < rd_max - rd_min + 1) := by
  constructor <;> rintro ⟨h1, h2⟩ <;> exact ⟨h1, by omega⟩

/-- C15: on the insane branch, for draws `ds` that all lie in `[rd_min, rd_max]`, the
accumulation loop ends with the mixed-radix value of the digits `d - rd_min` in base
`size = rd_max - rd_min + 1`; that value lies in `[0, size ^ n - 1]`; sequences of `n`
in-range draws and values of that interval correspond one to one (each value is the
accumulator of some sequence, of one only); and the quotient `tmp / size ^ n` lies
in `[0, 1)`. -/
theorem C15_mixed_radix_accumulator (rd_min rd_max : Nat) (ds : List Nat) (rd : random_device)
    (hmm : rd_min ≤ rd_max) (hds : ∀ d ∈ ds, rd_min ≤ d ∧ d ≤ rd_max) (hy : yields ds rd = true) :
    insane_loop ((rd_max : ℚ) - (rd_min : ℚ) + 1) (rd_min : ℚ) ds.length 0 rd
      = (some ((spec_mixed_radix (rd_max - rd_min + 1) rd_min ds : Nat) : ℚ),
          rd.advance ds.length) ∧
    spec_mixed_radix (rd_max - rd_min + 1) rd_min ds ≤ (rd_max - rd_min + 1) ^ ds.length - 1 ∧
    (∀ es : List Nat, es.length = ds.length → (∀ e ∈ es, rd_min ≤ e ∧ e ≤ rd_max) →
      (insane_loop ((rd_max : ℚ) - (rd_min : ℚ) + 1) (rd_min : ℚ) es.length 0
          (scripted (es.map some))).1
        = (insane_loop ((rd_max : ℚ) - (rd_min : ℚ) + 1) (rd_min : ℚ) ds.length 0 rd).1 →
      es = ds) ∧
    (∀ v : Nat, v ≤ (rd_max - rd_min + 1) ^ ds.length - 1 →
      ∃ es : List Nat, es.length = ds.length ∧ (∀ e ∈ es, rd_min ≤ e ∧ e ≤ rd_max) ∧
        (insane_loop ((rd_max : ℚ) - (rd_min : ℚ) + 1) (rd_min : ℚ) es.length 0
          (scripted (es.map some))).1 = some (v : ℚ)) ∧
    (0 : ℚ) ≤ ((spec_mixed_radix (rd_max - rd_min + 1) rd_min ds : Nat) : ℚ)
        / ((rd_max : ℚ) - (rd_min : ℚ) + 1) ^ ds.length ∧
    ((spec_mixed_radix (rd_max - rd_min + 1) rd_min ds : Nat) : ℚ)
        / ((rd_max : ℚ) - (rd_min : ℚ) + 1) ^ ds.length < 1 := by
  have hsz : (rd_max : ℚ) - (rd_min : ℚ) + 1 = ((rd_max - rd_min + 1 : Nat) : ℚ) := by
    push_cast [Nat.cast_sub hmm]; ring
  have hloop : ∀ (es : List Nat) (r : random_device), (∀ e ∈ es, rd_min ≤ e ∧ e ≤ rd_max) →
      yields es r = true →
      insane_loop ((rd_max : ℚ) - (rd_min : ℚ) + 1) (rd_min : ℚ) es.length 0 r
        = (some ((spec_mixed_radix (rd_max - rd_min + 1) rd_min es : Nat) : ℚ),
            r.advance es.length) := by
    intro es r hes hr
    rw [insane_loop_some _ _ es 0 r hr, hsz]
    have := foldl_mixed_radix (rd_max - rd_min + 1) rd_min es (fun e he => (hes e he).1) 0
    simp only [Nat.cast_zero, Nat.zero_mul, Nat.zero_add] at this
    rw [this]
  have hrng : ∀ es : List Nat, (∀ e ∈ es, rd_min ≤ e ∧ e ≤ rd_max) →
      ∀ e ∈ es, rd_min ≤ e ∧ e - rd_min < rd_max - rd_min + 1 :=
    fun es hes e he => (in_range_iff rd_min rd_max e hmm).1 (hes e he)
  have hlt := mixed_radix_lt (rd_max - rd_min + 1) rd_min ds (fun d hd => (hrng ds hds d hd).2)
  have hpos : (0 : ℚ) < ((rd_max - rd_min + 1 : Nat) : ℚ) ^ ds.length := by positivity
  refine ⟨hloop ds rd hds hy, by omega, ?_, ?_, ?_, ?_⟩
  · intro es hl hes he
    rw [hloop es _ hes (yields_scripted es), hloop ds rd hds hy] at he
    simp only [Option.some.injEq, Nat.cast_inj] at he
    exact mixed_radix_inj _ _ es ds hl (hrng es hes) (hrng ds hds) he
  · intro v hv
    obtain ⟨es, hl, hes, hval⟩ := mixed_radix_surj (rd_max - rd_min + 1) rd_min ds.length v
      (by omega)
    have hes' : ∀ e ∈ es, rd_min ≤ e ∧ e ≤ rd_max :=
      fun e he => (in_range_iff rd_min rd_max e hmm).2 (hes e he)
    exact ⟨es, hl, hes', by rw [hloop es _ hes' (yields_scripted es), hval]⟩
  · rw [hsz]; positivity
  · rw [hsz, div_lt_one hpos]
    exact_mod_cast hlt

/-- A use of C15 on the raw range `[0, 9]` with the draws 9, 9, 9: the accumulator
is 999, below `10 ^ 3`. -/
theorem C15_mixed_radix_accumulator_witness :
    spec_mixed_radix (9 - 0 + 1) 0 [9, 9, 9] ≤ (9 - 0 + 1) ^ [9, 9, 9].length - 1 :=
  (C15_mixed_radix_accumulator 0 9 [9, 9, 9] (scripted [some 9, some 9, some 9]) (by decide)
    (by decide) (by decide)).2.1

theorem foldl_sane_body (W k : Nat) (ds : List Nat) (hk : 1 ≤ k)
    (hl : ds.length = ceil_div W k) (hds : ∀ d ∈ ds, d < 2 ^ k) :
    ds.foldl (fun r d => if k < W then shift_or W k r d else r ||| (d % 2 ^ W)) 0
      = spec_concat_be k ds % 2 ^ W := by
  by_cases hkW : k < W
  · simp only [hkW, if_true]
    have h1 := foldl_shift_or W k (le_of_lt hkW) ds hds 0
    rw [Nat.zero_mod] at h1
    have h2 := foldl_radix (2 ^ k) ds 0
    rw [Nat.zero_mul, Nat.zero_add] at h2
    have h3 : List.foldl (fun r d => shift_or W k r d) 0 ds = List.foldl (shift_or W k) 0 ds := rfl
    rw [h3, h1, h2, spec_concat_be_eq]
  · simp only [hkW, if_false]
    obtain ⟨h1, h2, _⟩ := ceil_div_spec W k hk
    rcases Nat.eq_zero_or_pos W with hW | hW
    · subst hW
      have : ds.length = 0 := by
        rw [hl]; by_contra h
        have := h2 0 (by omega); omega
      have : ds = [] := List.length_eq_zero.1 this
      subst this
      simp [spec_concat_be]
    · have hm : ceil_div W k = 1 := by
        have ha : 1 ≤ ceil_div W k := by
          by_contra h
          have : ceil_div W k = 0 := by omega
          rw [this] at h1; omega
        have hb : ¬ 2 ≤ ceil_div W k := by
          intro h
          have := h2 1 (by omega); omega
        omega
      rw [hm] at hl
      match ds, hl with
      | [d], _ => simp [spec_concat_be]

theorem sane_extract_returned (cfg : config) (k : Nat) (ds : List Nat) (rd : random_device)
    (hk : 1 ≤ k) (hmax : cfg.rd_max = 2 ^ k - 1) (hy : yields ds rd = true)
    (hl : ds.length = ceil_div cfg.result_bits k) :
    sane_extract cfg rd = .returned
      (ds.foldl (fun r d => if k < cfg.result_bits then shift_or cfg.result_bits k r d
        else r ||| (d % 2 ^ cfg.result_bits)) 0)
      (rd.advance (ceil_div cfg.result_bits k)) := by
  obtain ⟨h1, h2, h3⟩ := ceil_div_spec cfg.result_bits k hk
  unfold sane_extract
  rw [hmax, lbeb_mask, ← hl]
  exact sane_loop_returned cfg.result_bits k ds cfg.result_bits 0 0 rd hy (by omega)
    (by rw [hl]; simpa using h1) (fun i hi => by rw [hl] at hi; simpa using h2 i hi)

theorem ceil_div_of_dvd (W k : Nat) (hk : 1 ≤ k) (hd : k ∣ W) : ceil_div W k = W / k := by
  obtain ⟨q, rfl⟩ := hd
  obtain ⟨h1, h2, _⟩ := ceil_div_spec (k * q) k hk
  rw [Nat.mul_div_cancel_left q hk]
  have ha : q ≤ ceil_div (k * q) k := by
    have h1' : q * k ≤ ceil_div (k * q) k * k := by rw [Nat.mul_comm q k]; exact h1
    exact Nat.le_of_mul_le_mul_right h1' hk
  have hb : ¬ q < ceil_div (k * q) k := by
    intro h
    have := h2 q h
    rw [Nat.mul_comm] at this; omega
  omega

theorem sane_extract_concat (cfg : config) (k : Nat) (ds : List Nat) (rd : random_device)
    (hk : 1 ≤ k) (hmax : cfg.rd_max = 2 ^ k - 1) (hy : yields ds rd = true)
    (hl : ds.length = ceil_div cfg.result_bits k) (hds : ∀ d ∈ ds, d ≤ cfg.rd_max) :
    sane_extract cfg rd = .returned (spec_concat_be k ds % 2 ^ cfg.result_bits)
      (rd.advance (ceil_div cfg.result_bits k)) := by
  have hds' : ∀ d ∈ ds, d < 2 ^ k := by
    intro d hd
    have := hds d hd
    have := Nat.one_le_two_pow (n := k)
    omega
  rw [sane_extract_returned cfg k ds rd hk hmax hy hl,
    foldl_sane_body cfg.result_bits k ds hk hl hds']

/-- C5: on the sane branch with raw range `[0, 2 ^ k - 1]`, result width `W` and `k`
dividing `W`, `1 <= k <= W`: an extraction whose `W / k` invocations succeed with
in-range values `d_0 .. d_(n-1)` makes exactly these `W / k` invocations and returns
the sum of `d_i * 2 ^ (k * (n - 1 - i))`; that value is at most `2 ^ W - 1`, two
sequences with the same result are equal, and every value up to `2 ^ W - 1` is the
result of some sequence. -/
theorem C5_sane_big_endian_bijection (cfg : config) (k : Nat) (ds : List Nat)
    (rd : random_device) (hk : 1 ≤ k) (hdvd : k ∣ cfg.result_bits)
    (hmax : cfg.rd_max = 2 ^ k - 1) (hy : yields ds rd = true)
    (hl : ds.length = cfg.result_bits / k) (hds : ∀ d ∈ ds, d ≤ cfg.rd_max) :
    sane_extract cfg rd = .returned (spec_concat_be k ds) (rd.advance (cfg.result_bits / k)) ∧
    (sane_extract cfg rd).draws rd = some (cfg.result_bits / k) ∧
    spec_concat_be k ds ≤ 2 ^ cfg.result_bits - 1 ∧
    (∀ (es : List Nat) (v : Nat) (r1 r2 : random_device), es.length = cfg.result_bits / k →
      (∀ e ∈ es, e ≤ cfg.rd_max) →
      sane_extract cfg (scripted (es.map some)) = .returned v r1 →
      sane_extract cfg rd = .returned v r2 → es = ds) ∧
    (∀ v : Nat, v ≤ 2 ^ cfg.result_bits - 1 →
      ∃ es : List Nat, es.length = cfg.result_bits / k ∧ (∀ e ∈ es, e ≤ cfg.rd_max) ∧
        sane_extract cfg (scripted (es.map some))
          = .returned v ((scripted (es.map some)).advance (cfg.result_bits / k))) := by
  have hcd := ceil_div_of_dvd cfg.result_bits k hk hdvd
  have hone := Nat.one_le_two_pow (n := k)
  have hWk : k * (cfg.result_bits / k) = cfg.result_bits := Nat.mul_div_cancel' hdvd
  have hbound : ∀ es : List Nat, es.length = cfg.result_bits / k → (∀ e ∈ es, e ≤ cfg.rd_max) →
      spec_concat_be k es < 2 ^ cfg.result_bits := by
    intro es hel hes
    have := mixed_radix_lt (2 ^ k) 0 es (fun e he => by have := hes e he; omega)
    rwa [← spec_concat_be_eq, ← pow_mul, hel, hWk] at this
  have hval : ∀ (es : List Nat) (r : random_device), es.length = cfg.result_bits / k →
      (∀ e ∈ es, e ≤ cfg.rd_max) → yields es r = true →
      sane_extract cfg r = .returned (spec_concat_be k es) (r.advance (cfg.result_bits / k)) := by
    intro es r hel hes hr
    rw [sane_extract_concat cfg k es r hk hmax hr (by rw [hel, hcd]) hes, hcd,
      Nat.mod_eq_of_lt (hbound es hel hes)]
  have hrng : ∀ es : List Nat, (∀ e ∈ es, e ≤ cfg.rd_max) →
      ∀ e ∈ es, 0 ≤ e ∧ e - 0 < 2 ^ k := by
    intro es hes e he
    have := hes e he
    exact ⟨Nat.zero_le _, by omega⟩
  refine ⟨hval ds rd hl hds hy, ?_, ?_, ?_, ?_⟩
  · rw [hval ds rd hl hds hy]; simp only [extraction.draws, advance_calls]
  · have := hbound ds hl hds; omega
  · intro es v r1 r2 hel hes h1 h2
    rw [hval es _ hel hes (yields_scripted es)] at h1
    rw [hval ds rd hl hds hy] at h2
    injection h1 with h1 _
    injection h2 with h2 _
    have he : spec_mixed_radix (2 ^ k) 0 es = spec_mixed_radix (2 ^ k) 0 ds := by
      rw [← spec_concat_be_eq, ← spec_concat_be_eq, h1, h2]
    exact mixed_radix_inj (2 ^ k) 0 es ds (by rw [hel, hl]) (hrng es hes) (hrng ds hds) he
  · intro v hv
    have hv' : v < (2 ^ k) ^ (cfg.result_bits / k) := by
      rw [← pow_mul, hWk]
      have := Nat.one_le_two_pow (n := cfg.result_bits)
      omega
    obtain ⟨es, hel, hes, hval'⟩ := mixed_radix_surj (2 ^ k) 0 (cfg.result_bits / k) v hv'
    have hes' : ∀ e ∈ es, e ≤ cfg.rd_max := by
      intro e he
      have := (hes e he).2
      omega
    refine ⟨es, hel, hes', ?_⟩
    rw [hval es _ hel hes' (yields_scripted es), spec_concat_be_eq, hval']

/-- A use of C5 on 4-bit raw values and 8-bit results: the draws 10 and 5 give
`10 * 16 + 5`. -/
theorem C5_sane_big_endian_bijection_witness :
    sane_extract cfg4 (scripted [some 10, some 5])
      = .returned (spec_concat_be 4 [10, 5])
          ((scripted [some 10, some 5]).advance (cfg4.result_bits / 4)) :=
  (C5_sane_big_endian_bijection cfg4 4 [10, 5] (scripted [some 10, some 5]) (by decide)
    (by decide) (by decide) (by decide) (by decide) (by decide)).1

/-- C17, as amended: on the sane branch with chunk width `k < W` (whether or not `k`
divides `W`), every raw draw, the last one included, is combined by shifting the
running result left by `k` bits in the `W`-bit result type and OR-ing the draw in; for
in-range draws the result is the big-endian concatenation of the `ceil (W / k)` chunks
reduced modulo `2 ^ W`, so the bits shifted beyond bit `W` are dropped and the last
chunk occupies the low `k` bits without overlapping earlier chunks. -/
theorem C17_every_draw_is_shifted_in (cfg : config) (k : Nat) (ds : List Nat)
    (rd : random_device) (hk : 1 ≤ k) (hkW : k < cfg.result_bits)
    (hmax : cfg.rd_max = 2 ^ k - 1) (hy : yields ds rd = true)
    (hl : ds.length = ceil_div cfg.result_bits k) (hds : ∀ d ∈ ds, d ≤ cfg.rd_max) :
    sane_extract cfg rd
      = .returned (ds.foldl (shift_or cfg.result_bits k) 0)
          (rd.advance (ceil_div cfg.result_bits k)) ∧
    ds.foldl (shift_or cfg.result_bits k) 0 = spec_concat_be k ds % 2 ^ cfg.result_bits ∧
    (∀ (r d : Nat), r < 2 ^ cfg.result_bits → d ≤ cfg.rd_max →
      shift_or cfg.result_bits k r d = (r * 2 ^ k + d) % 2 ^ cfg.result_bits ∧
      shift_or cfg.result_bits k r d % 2 ^ k = d) := by
  have hds' : ∀ d, d ≤ cfg.rd_max → d < 2 ^ k := by
    intro d hd
    have := Nat.one_le_two_pow (n := k)
    omega
  have h1 := sane_extract_returned cfg k ds rd hk hmax hy hl
  have h2 := foldl_sane_body cfg.result_bits k ds hk hl (fun d hd => hds' d (hds d hd))
  simp only [hkW, if_true] at h1 h2
  refine ⟨h1, h2, ?_⟩
  intro r d hr hd
  have h3 := shift_or_mod cfg.result_bits k r d (le_of_lt hkW) (hds' d hd)
  rw [Nat.mod_eq_of_lt hr] at h3
  refine ⟨h3, ?_⟩
  rw [h3, Nat.mod_mod_of_dvd _ (Nat.pow_dvd_pow 2 (le_of_lt hkW)), Nat.mul_comm,
    Nat.mul_add_mod, Nat.mod_eq_of_lt (hds' d hd)]

/-- A use of the amended C17 on 3-bit raw values and 8-bit results. -/
theorem C17_every_draw_is_shifted_in_witness :
    sane_extract cfg3 (scripted [some 1, some 0, some 0])
      = .returned ([1, 0, 0].foldl (shift_or cfg3.result_bits 3) 0)
          ((scripted [some 1, some 0, some 0]).advance (ceil_div cfg3.result_bits 3)) :=
  (C17_every_draw_is_shifted_in cfg3 3 [1, 0, 0] (scripted [some 1, some 0, some 0])
    (by decide) (by decide) (by decide) (by decide) (by decide) (by decide)).1

/-- C17 as stated fails: with 3-bit raw values and 8-bit results (3 does not divide 8)
and the draws 1, 0, 0, the code returns 64, the first draw having been shifted twice,
the second time for the last draw; OR-ing the last draw in without a shift would
give 8. -/
theorem C17_last_draw_unshifted_counterexample :
    cfg3.rd_max = 2 ^ 3 - 1 ∧ 3 < cfg3.result_bits ∧ ¬ 3 ∣ cfg3.result_bits ∧
    sane_extract cfg3 (scripted [some 1, some 0, some 0])
      = .returned 64 ((scripted [some 1, some 0, some 0]).advance 3) ∧
    spec_last_unshifted cfg3.result_bits 3 0 [1, 0, 0] = 8 ∧
    sane_extract cfg3 (scripted [some 1, some 0, some 0])
      ≠ .returned (spec_last_unshifted cfg3.result_bits 3 0 [1, 0, 0])
          ((scripted [some 1, some 0, some 0]).advance 3) := by
  have h := sane_extract_returned cfg3 3 [1, 0, 0] (scripted [some 1, some 0, some 0])
    (by decide) (by decide) (by decide) (by decide)
  have h64 : ([1, 0, 0].foldl (fun r d => if 3 < cfg3.result_bits
      then shift_or cfg3.result_bits 3 r d else r ||| (d % 2 ^ cfg3.result_bits)) 0) = 64 := by
    decide
  have hc : ceil_div cfg3.result_bits 3 = 3 := by decide
  have h8 : spec_last_unshifted cfg3.result_bits 3 0 [1, 0, 0] = 8 := by decide
  rw [h64, hc] at h
  refine ⟨by decide, by decide, by decide, h, h8, ?_⟩
  rw [h, h8]
  intro hne
  injection hne with h1 _
  exact absurd h1 (by decide)

theorem init_fallback_present (eng : fallback_engine) (seed_val : Nat)
    (s : sane_random_device eng.G) (g : eng.G) (h : s.rd_fallback = some g) :
    init_fallback eng seed_val s = s := by
  unfold init_fallback; rw [h]

theorem init_fallback_isSome (eng : fallback_engine) (seed_val : Nat)
    (s : sane_random_device eng.G) :
    (init_fallback eng seed_val s).rd_fallback.isSome = true ∧
    (init_fallback eng seed_val s).prd = s.prd ∧
    (init_fallback eng seed_val s).rd_reliable = s.rd_reliable ∧
    (init_fallback eng seed_val s).token = s.token := by
  unfold init_fallback
  cases h : s.rd_fallback <;> simp [h]

theorem operator_call_fallback_step (cfg : config) (eng : fallback_engine) (seed_val : Nat)
    (s s1 : sane_random_device eng.G) (g : eng.G) (v : Nat) (hg : s.rd_fallback = some g)
    (h : operator_call cfg eng seed_val s = .ok (v, s1)) :
    s1.rd_fallback = some g ∨ s1.rd_fallback = some (eng.random g).2 := by
  unfold operator_call at h
  cases hp : s.prd with
  | none =>
    simp only [hp, xor_fallback, hg] at h
    simp only [Bool.not_false, if_true, Except.ok.injEq, Prod.mk.injEq] at h
    right; rw [← h.2]
  | some rd =>
    simp only [hp] at h
    cases he : extract cfg rd with
    | returned r rd1 =>
      simp only [he, xor_fallback, hg] at h
      cases hr : s.rd_reliable <;> simp only [hr, Bool.not_false, Bool.not_true, if_true,
        Except.ok.injEq, Prod.mk.injEq] at h
      · right; rw [← h.2]
      · left; simp at h; rw [← h.2]
    | threw r rd1 =>
      simp only [he] at h
      rw [init_fallback_present eng seed_val _ g (by exact hg)] at h
      simp only [xor_fallback, hg, Bool.not_false, if_true, Except.ok.injEq, Prod.mk.injEq] at h
      right; rw [← h.2]
    | stuck f => simp [he] at h

theorem construct_cases (eng : fallback_engine) (token : List Int)
    (made : Except exception random_device) (entropy : random_device → Except exception ℚ)
    (seed_val : Nat) :
    (construct eng token made entropy seed_val = .error .out_of_memory ∧
      (made = .error .out_of_memory ∨ ∃ rd, made = .ok rd ∧ entropy rd = .error .out_of_memory)) ∨
    (∃ rd e, made = .ok rd ∧ entropy rd = .ok e ∧ 0 < e ∧
      construct eng token made entropy seed_val = .ok
        { token := token, prd := some rd, rd_reliable := true, rd_fallback := none }) ∨
    (((made = .error .std_exception) ∨ (∃ rd, made = .ok rd ∧
        (entropy rd = .error .std_exception ∨ ∃ e, entropy rd = .ok e ∧ ¬ 0 < e))) ∧
      construct eng token made entropy seed_val = .ok
        { token := token, prd := made.toOption, rd_reliable := false,
          rd_fallback := some (eng.seed_seq (init_fallback_seeds token seed_val)) }) := by
  unfold construct
  rcases made with (_ | _) | rd
  · left; exact ⟨rfl, Or.inl rfl⟩
  · right; right; exact ⟨Or.inl rfl, rfl⟩
  · rcases he : entropy rd with (_ | _) | e
    · left; simp [he]
    · right; right
      refine ⟨Or.inr ⟨rd, rfl, Or.inl he⟩, ?_⟩
      simp [he, init_fallback, Except.toOption]
    · by_cases hpos : 0 < e
      · right; left
        exact ⟨rd, e, rfl, he, hpos, by simp [he, hpos]⟩
      · right; right
        refine ⟨Or.inr ⟨rd, rfl, Or.inr ⟨e, he, hpos⟩⟩, ?_⟩
        simp [he, hpos, init_fallback, Except.toOption]

theorem operator_call_none (cfg : config) (eng : fallback_engine) (sv : Nat)
    (s : sane_random_device eng.G) (hp : s.prd = none) :
    operator_call cfg eng sv s = xor_fallback eng 0 { s with rd_reliable := false } := by
  simp only [operator_call, hp]

theorem operator_call_returned (cfg : config) (eng : fallback_engine) (sv : Nat)
    (s : sane_random_device eng.G) (rd rd1 : random_device) (r : Nat) (hp : s.prd = some rd)
    (he : extract cfg rd = .returned r rd1) :
    operator_call cfg eng sv s = xor_fallback eng r { s with prd := some rd1 } := by
  simp only [operator_call, hp, he]

theorem operator_call_threw (cfg : config) (eng : fallback_engine) (sv : Nat)
    (s : sane_random_device eng.G) (rd rd1 : random_device) (r : Nat) (hp : s.prd = some rd)
    (he : extract cfg rd = .threw r rd1) :
    operator_call cfg eng sv s = xor_fallback eng r
      (init_fallback eng sv { s with prd := some rd1, rd_reliable := false }) := by
  simp only [operator_call, hp, he]

theorem operator_call_stuck (cfg : config) (eng : fallback_engine) (sv : Nat)
    (s : sane_random_device eng.G) (rd : random_device) (f : fault) (hp : s.prd = some rd)
    (he : extract cfg rd = .stuck f) :
    operator_call cfg eng sv s = .error f := by
  simp only [operator_call, hp, he]

theorem operator_call_seed_irrelevant (cfg : config) (eng : fallback_engine) (sv sv' : Nat)
    (s : sane_random_device eng.G) (g : eng.G) (hg : s.rd_fallback = some g) :
    operator_call cfg eng sv s = operator_call cfg eng sv' s := by
  cases hp : s.prd with
  | none => rw [operator_call_none cfg eng sv s hp, operator_call_none cfg eng sv' s hp]
  | some rd =>
    cases he : extract cfg rd with
    | returned r rd1 =>
      rw [operator_call_returned cfg eng sv s rd rd1 r hp he,
        operator_call_returned cfg eng sv' s rd rd1 r hp he]
    | threw r rd1 =>
      rw [operator_call_threw cfg eng sv s rd rd1 r hp he,
        operator_call_threw cfg eng sv' s rd rd1 r hp he,
        init_fallback_present eng sv _ g (by exact hg),
        init_fallback_present eng sv' _ g (by exact hg)]
    | stuck f =>
      rw [operator_call_stuck cfg eng sv s rd f hp he,
        operator_call_stuck cfg eng sv' s rd f hp he]

theorem draw_sequence_fallback (cfg : config) (eng : fallback_engine) (seeds : List Nat) :
    ∀ (s s1 : sane_random_device eng.G) (g : eng.G) (vs : List Nat),
      s.rd_fallback = some g → draw_sequence cfg eng seeds s = .ok (vs, s1) →
      ∃ j, j ≤ seeds.length ∧
        s1.rd_fallback = some (Nat.iterate (fun x => (eng.random x).2) j g) := by
  induction seeds with
  | nil =>
    intro s s1 g vs hg h
    simp only [draw_sequence, Except.ok.injEq, Prod.mk.injEq] at h
    exact ⟨0, le_rfl, by rw [← h.2]; exact hg⟩
  | cons sv rest ih =>
    intro s s1 g vs hg h
    simp only [draw_sequence] at h
    rcases h1 : operator_call cfg eng sv s with f | ⟨v, s2⟩
    · simp [h1] at h
    · simp only [h1] at h
      rcases h2 : draw_sequence cfg eng rest s2 with f | ⟨ws, s3⟩
      · simp [h2] at h
      · simp only [h2, Except.ok.injEq, Prod.mk.injEq] at h
        obtain ⟨_, rfl⟩ := h
        rcases operator_call_fallback_step cfg eng sv s s2 g v hg h1 with hs | hs
        · obtain ⟨j, hj, hj'⟩ := ih s2 s3 g ws hs h2
          exact ⟨j, by simp; omega, hj'⟩
        · obtain ⟨j, hj, hj'⟩ := ih s2 s3 _ ws hs h2
          exact ⟨j + 1, by simp; omega, by rw [hj']; rfl⟩

theorem draw_sequence_seed_irrelevant (cfg : config) (eng : fallback_engine) (seeds : List Nat) :
    ∀ (seeds' : List Nat) (s : sane_random_device eng.G) (g : eng.G),
      s.rd_fallback = some g → seeds.length = seeds'.length →
      draw_sequence cfg eng seeds s = draw_sequence cfg eng seeds' s := by
  induction seeds with
  | nil => intro seeds' s g _ hl; cases seeds' with
    | nil => rfl
    | cons _ _ => simp at hl
  | cons sv rest ih =>
    intro seeds' s g hg hl
    cases seeds' with
    | nil => simp at hl
    | cons sv' rest' =>
      simp only [draw_sequence]
      rw [operator_call_seed_irrelevant cfg eng sv sv' s g hg]
      rcases h1 : operator_call cfg eng sv' s with f | ⟨v, s2⟩
      · rfl
      · simp only
        rcases operator_call_fallback_step cfg eng sv' s s2 g v hg h1 with hs | hs
        · rw [ih rest' s2 _ hs (by simpa using hl)]
        · rw [ih rest' s2 _ hs (by simpa using hl)]

theorem xor_fallback_reliable (eng : fallback_engine) (r : Nat) (s : sane_random_device eng.G)
    (h : s.rd_reliable = true) : xor_fallback eng r s = .ok (r, s) := by
  simp [xor_fallback, h]

theorem xor_fallback_unreliable (eng : fallback_engine) (r : Nat)
    (s : sane_random_device eng.G) (g : eng.G) (h : s.rd_reliable = false)
    (hg : s.rd_fallback = some g) :
    xor_fallback eng r s
      = .ok (r ^^^ (eng.random g).1, { s with rd_fallback := some (eng.random g).2 }) := by
  simp [xor_fallback, h, hg]

theorem xor_fallback_null (eng : fallback_engine) (r : Nat) (s : sane_random_device eng.G)
    (h : s.rd_reliable = false) (hg : s.rd_fallback = none) :
    xor_fallback eng r s = .error .null_fallback := by
  simp [xor_fallback, h, hg]

theorem ceil_div_pos (W k : Nat) (hk : 1 ≤ k) (hW : 0 < W) : 1 ≤ ceil_div W k := by
  have := (ceil_div_spec W k hk).1
  by_contra h
  have h0 : ceil_div W k = 0 := by omega
  rw [h0] at this; omega

theorem insane_extract_with_cases (cfg : config) (n : Nat) (rd : random_device) :
    (∃ ds, ds.length = n ∧ yields ds rd = true ∧
      insane_extract_with cfg n rd = .returned
        (insane_result cfg ((cfg.rd_max : ℚ) - (cfg.rd_min : ℚ) + 1) n
          (ds.foldl (fun (t : ℚ) (d : Nat) =>
            t * ((cfg.rd_max : ℚ) - (cfg.rd_min : ℚ) + 1) + ((d : ℚ) - (cfg.rd_min : ℚ))) 0))
        (rd.advance n)) ∨
    (∃ ds, ds.length < n ∧ yields ds rd = true ∧ (rd.advance ds.length).invoke.1 = none ∧
      insane_extract_with cfg n rd = .threw 0 (rd.advance (ds.length + 1))) := by
  rcases insane_loop_cases ((cfg.rd_max : ℚ) - (cfg.rd_min : ℚ) + 1) (cfg.rd_min : ℚ) n rd
    with ⟨ds, h1, h2, h⟩ | ⟨ds, h1, h2, h3, h⟩
  · exact Or.inl ⟨ds, h1, h2, by simp only [insane_extract_with, h]⟩
  · exact Or.inr ⟨ds, h1, h2, h3, by simp only [insane_extract_with, h]⟩

/-- On a valid configuration the `try` block always ends, by returning or by a throw of
the primary source, after at least one invocation. -/
theorem extract_total (cfg : config) (hv : cfg.valid) (rd : random_device) :
    ∃ (r j : Nat), 1 ≤ j ∧
      (extract cfg rd = .returned r (rd.advance j) ∨ extract cfg rd = .threw r (rd.advance j)) := by
  obtain ⟨hw, hmm, hmax, hW⟩ := hv
  by_cases hc : (cfg.rd_min != 0 || !is_mask cfg.uint_bits cfg.rd_max) = true
  · have he : extract cfg rd = insane_extract cfg rd := by simp only [extract, hc]; rfl
    have hs : ¬ (cfg.rd_max - cfg.rd_min + 1 ≤ 1) := by omega
    have hi : insane_extract cfg rd
        = insane_extract_with cfg (Nat.clog (cfg.rd_max - cfg.rd_min + 1) (2 ^ cfg.result_bits))
            rd := by
      simp only [insane_extract, insane_iterations, hs, if_false]
    have hn : 1 ≤ Nat.clog (cfg.rd_max - cfg.rd_min + 1) (2 ^ cfg.result_bits) := by
      apply Nat.clog_pos (by omega)
      calc 2 = 2 ^ 1 := by norm_num
        _ ≤ 2 ^ cfg.result_bits := Nat.pow_le_pow_right (by norm_num) hW
    rw [he, hi]
    rcases insane_extract_with_cases cfg
      (Nat.clog (cfg.rd_max - cfg.rd_min + 1) (2 ^ cfg.result_bits)) rd
      with ⟨ds, _, _, h⟩ | ⟨ds, _, _, _, h⟩
    · exact ⟨_, _, hn, Or.inl h⟩
    · exact ⟨0, ds.length + 1, by omega, Or.inr h⟩
  · have hc' : (cfg.rd_min != 0 || !is_mask cfg.uint_bits cfg.rd_max) = false := by
      simpa using hc
    have he : extract cfg rd = sane_extract cfg rd := by simp only [extract, hc']; rfl
    have hm : is_mask cfg.uint_bits cfg.rd_max = true := by
      simp only [Bool.or_eq_false_iff, Bool.not_eq_false'] at hc'
      exact hc'.2
    obtain ⟨k, hk, _, hk'⟩ := (is_mask_iff cfg.uint_bits cfg.rd_max hw hmax).1 hm
    rw [he]
    unfold sane_extract
    rw [hk', lbeb_mask]
    rcases sane_loop_cases cfg.result_bits k cfg.result_bits hk
      (ceil_div_spec cfg.result_bits k hk).2.2 rd with ⟨ds, _, _, h⟩ | ⟨ds, _, _, _, h⟩
    · exact ⟨_, _, ceil_div_pos cfg.result_bits k hk hW, Or.inl h⟩
    · exact ⟨_, ds.length + 1, by omega, Or.inr h⟩

theorem operator_call_invariant (cfg : config) (hv : cfg.valid) (eng : fallback_engine)
    (sv : Nat) (s : sane_random_device eng.G) (hinv : invariant s) :
    ∃ v s1, operator_call cfg eng sv s = .ok (v, s1) ∧ invariant s1 := by
  obtain ⟨h1, h2⟩ := hinv
  cases hp : s.prd with
  | none =>
    have hr : s.rd_reliable = false := h2 (by simp [hp])
    obtain ⟨g, hg⟩ := Option.isSome_iff_exists.1 (h1 hr)
    rw [operator_call_none cfg eng sv s hp]
    exact ⟨_, _, xor_fallback_unreliable eng 0 _ g rfl hg, by simp [invariant]⟩
  | some rd =>
    obtain ⟨r, j, _, he | he⟩ := extract_total cfg hv rd
    · rw [operator_call_returned cfg eng sv s rd _ r hp he]
      rcases Bool.eq_false_or_eq_true s.rd_reliable with hr | hr
      · exact ⟨_, _, xor_fallback_reliable eng r _ hr, by simp [invariant, hr]⟩
      · obtain ⟨g, hg⟩ := Option.isSome_iff_exists.1 (h1 hr)
        exact ⟨_, _, xor_fallback_unreliable eng r _ g hr hg, by simp [invariant]⟩
    · rw [operator_call_threw cfg eng sv s rd _ r hp he]
      obtain ⟨hf, hprd, hrel, _⟩ := init_fallback_isSome eng sv
        { s with prd := some (rd.advance j), rd_reliable := false }
      obtain ⟨g, hg⟩ := Option.isSome_iff_exists.1 hf
      exact ⟨_, _, xor_fallback_unreliable eng r _ g hrel hg, by simp [invariant, hprd]⟩

theorem draw_sequence_invariant (cfg : config) (hv : cfg.valid) (eng : fallback_engine)
    (seeds : List Nat) :
    ∀ s : sane_random_device eng.G, invariant s →
      ∃ vs s1, draw_sequence cfg eng seeds s = .ok (vs, s1) ∧ vs.length = seeds.length ∧
        invariant s1 := by
  induction seeds with
  | nil => intro s hs; exact ⟨[], s, rfl, rfl, hs⟩
  | cons sv rest ih =>
    intro s hs
    obtain ⟨v, s1, h1, hs1⟩ := operator_call_invariant cfg hv eng sv s hs
    obtain ⟨vs, s2, h2, hl, hs2⟩ := ih s1 hs1
    exact ⟨v :: vs, s2, by simp only [draw_sequence, h1, h2], by simp [hl], hs2⟩

theorem construct_invariant (eng : fallback_engine) (token : List Int)
    (made : Except exception random_device) (entropy : random_device → Except exception ℚ)
    (seed_val : Nat) (d : sane_random_device eng.G)
    (h : construct eng token made entropy seed_val = .ok d) : invariant d := by
  rcases construct_cases eng token made entropy seed_val with ⟨h1, _⟩ | ⟨rd, e, _, _, _, h1⟩ |
    ⟨_, h1⟩
  · rw [h1] at h; cases h
  · rw [h1] at h; cases h; simp [invariant]
  · rw [h1] at h; cases h; simp [invariant]

/-- C2: a draw is total in every reachable state.  On a valid configuration, a device
returned by either constructor satisfies the invariant (an unreliable device has its
fallback generator; a device without primary source handle is unreliable, hence has
the generator), and from it every sequence of draws, whatever the primary source does
at each invocation and whatever the clock reads, returns one value per draw, never
fails, and ends in a state that satisfies the invariant again. -/
theorem C2_draw_total (cfg : config) (eng : fallback_engine) (token : List Int)
    (made : Except exception random_device) (made_token : List Int → Except exception random_device)
    (entropy : random_device → Except exception ℚ) (seed_val : Nat) (seeds : List Nat)
    (d : sane_random_device eng.G) (hv : cfg.valid)
    (hd : sane_random_device.new eng made entropy seed_val = .ok d ∨
      sane_random_device.new_token eng token made_token entropy seed_val = .ok d) :
    (d.rd_reliable = false → d.rd_fallback.isSome = true) ∧
    (d.prd.isSome = false → d.rd_reliable = false ∧ d.rd_fallback.isSome = true) ∧
    ∃ vs d1, draw_sequence cfg eng seeds d = .ok (vs, d1) ∧ vs.length = seeds.length ∧
      (d1.rd_reliable = false → d1.rd_fallback.isSome = true) ∧
      (d1.prd.isSome = false → d1.rd_reliable = false ∧ d1.rd_fallback.isSome = true) := by
  have hinv : invariant d := by
    rcases hd with h | h
    · exact construct_invariant eng [] made entropy seed_val d h
    · exact construct_invariant eng token (made_token token) entropy seed_val d h
  obtain ⟨vs, d1, h1, hl, hinv1⟩ := draw_sequence_invariant cfg hv eng seeds d hinv
  exact ⟨hinv.1, fun h => ⟨hinv.2 h, hinv.1 (hinv.2 h)⟩, vs, d1, h1, hl, hinv1.1,
    fun h => ⟨hinv1.2 h, hinv1.1 (hinv1.2 h)⟩⟩
/-- A use of C2: a device on a primary source that throws at its second invocation
returns three values over three draws. -/
theorem C2_draw_total_witness :
    ∃ vs d1, draw_sequence cfg16 counter_engine [7, 8, 9]
        (reliable_device (scripted [some 1, none, some 2])) = .ok (vs, d1) ∧
      vs.length = [7, 8, 9].length ∧
      (d1.rd_reliable = false → d1.rd_fallback.isSome = true) ∧
      (d1.prd.isSome = false → d1.rd_reliable = false ∧ d1.rd_fallback.isSome = true) :=
  (C2_draw_total cfg16 counter_engine [] (.ok (scripted [some 1, none, some 2]))
    (fun _ => .error .std_exception) (fun _ => .ok 1) 5 [7, 8, 9]
    (reliable_device (scripted [some 1, none, some 2]))
    ⟨by decide, by decide, by decide, by decide⟩
    (Or.inl (by simp [sane_random_device.new, construct, reliable_device]))).2.2

/-- C11: the fallback generator is absent until first needed and seeded at most once.
A device constructed reliable has no fallback generator; a draw on a reliable device
without generator in which the primary source does not fail leaves the generator
absent, and the draw in which the primary source fails seeds it (and draws from it
once); `init_fallback` on a device that has a generator returns the device unchanged
for every clock reading, so it is idempotent; and over any sequence of draws a
generator that is present is only advanced by draws, never seeded again or replaced,
and the whole run does not depend on the clock readings. -/
theorem C11_fallback_seeded_once (cfg : config) (eng : fallback_engine)
    (s : sane_random_device eng.G) (seed_val : Nat) :
    (∀ token made entropy sv d, construct eng token made entropy sv = .ok d →
      d.rd_reliable = true → d.rd_fallback = none) ∧
    (∀ v s1, s.rd_reliable = true → s.rd_fallback = none → primary_failed cfg s = false →
      operator_call cfg eng seed_val s = .ok (v, s1) →
      s1.rd_fallback = none ∧ s1.rd_reliable = true) ∧
    (∀ v s1, s.rd_fallback = none → primary_failed cfg s = true →
      operator_call cfg eng seed_val s = .ok (v, s1) →
      s1.rd_fallback
        = some (eng.random (eng.seed_seq (init_fallback_seeds s.token seed_val))).2) ∧
    (s.rd_fallback.isSome = true → ∀ sv, init_fallback eng sv s = s) ∧
    (∀ sv sv1, init_fallback eng sv1 (init_fallback eng sv s) = init_fallback eng sv s) ∧
    (∀ g seeds vs s1, s.rd_fallback = some g → draw_sequence cfg eng seeds s = .ok (vs, s1) →
      ∃ j, j ≤ seeds.length ∧
        s1.rd_fallback = some (Nat.iterate (fun x => (eng.random x).2) j g)) ∧
    (∀ seeds seeds1, s.rd_fallback.isSome = true → seeds.length = seeds1.length →
      draw_sequence cfg eng seeds s = draw_sequence cfg eng seeds1 s) := by
  refine ⟨?_, ?_, ?_, ?_, ?_, ?_, ?_⟩
  · intro token made entropy sv d h hr
    rcases construct_cases eng token made entropy sv with ⟨h1, _⟩ | ⟨rd, e, _, _, _, h1⟩ |
      ⟨_, h1⟩
    · rw [h1] at h; cases h
    · rw [h1] at h; cases h; rfl
    · rw [h1] at h; cases h; simp at hr
  · intro v s1 hr hg hpf h
    cases hp : s.prd with
    | none =>
      rw [operator_call_none cfg eng seed_val s hp,
        xor_fallback_null eng 0 _ rfl (by exact hg)] at h
      cases h
    | some rd =>
      cases he : extract cfg rd with
      | returned r rd1 =>
        rw [operator_call_returned cfg eng seed_val s rd rd1 r hp he,
          xor_fallback_reliable eng r _ (by exact hr)] at h
        cases h
        exact ⟨hg, hr⟩
      | threw r rd1 => simp [primary_failed, hp, he] at hpf
      | stuck f =>
        rw [operator_call_stuck cfg eng seed_val s rd f hp he] at h
        cases h
  · intro v s1 hg hpf h
    cases hp : s.prd with
    | none => simp [primary_failed, hp] at hpf
    | some rd =>
      cases he : extract cfg rd with
      | returned r rd1 => simp [primary_failed, hp, he] at hpf
      | threw r rd1 =>
        rw [operator_call_threw cfg eng seed_val s rd rd1 r hp he] at h
        have hi : init_fallback eng seed_val { s with prd := some rd1, rd_reliable := false }
            = { token := s.token, prd := some rd1, rd_reliable := false,
                rd_fallback := some (eng.seed_seq (init_fallback_seeds s.token seed_val)) } := by
          simp [init_fallback, hg]
        rw [hi, xor_fallback_unreliable eng r _ _ rfl rfl] at h
        cases h
        rfl
      | stuck f => simp [primary_failed, hp, he] at hpf
  · intro hs sv
    obtain ⟨g, hg⟩ := Option.isSome_iff_exists.1 hs
    exact init_fallback_present eng sv s g hg
  · intro sv sv1
    obtain ⟨g, hg⟩ := Option.isSome_iff_exists.1 (init_fallback_isSome eng sv s).1
    exact init_fallback_present eng sv1 _ g hg
  · intro g seeds vs s1 hg h
    exact draw_sequence_fallback cfg eng seeds s s1 g vs hg h
  · intro seeds seeds1 hs hl
    obtain ⟨g, hg⟩ := Option.isSome_iff_exists.1 hs
    exact draw_sequence_seed_irrelevant cfg eng seeds seeds1 s g hg hl

theorem extract_sane (cfg : config) (k : Nat) (rd : random_device) (hw : 0 < cfg.uint_bits)
    (h0 : cfg.rd_min = 0) (hk : 1 ≤ k) (hkw : k ≤ cfg.uint_bits) (hmax : cfg.rd_max = 2 ^ k - 1) :
    extract cfg rd = sane_extract cfg rd := by
  have hlt : cfg.rd_max < 2 ^ cfg.uint_bits := by
    have := Nat.pow_le_pow_right (by norm_num : 0 < 2) hkw
    have := Nat.one_le_two_pow (n := k)
    omega
  have hm : is_mask cfg.uint_bits cfg.rd_max = true :=
    (is_mask_iff cfg.uint_bits cfg.rd_max hw hlt).2 ⟨k, hk, hkw, hmax⟩
  simp [extract, h0, hm]

theorem sane_extract_threw (cfg : config) (k : Nat) (ds : List Nat) (rd : random_device)
    (hk : 1 ≤ k) (hmax : cfg.rd_max = 2 ^ k - 1) (hy : yields ds rd = true)
    (hl : ds.length < ceil_div cfg.result_bits k)
    (hn : (rd.advance ds.length).invoke.1 = none) :
    sane_extract cfg rd = .threw
      (ds.foldl (fun r d => if k < cfg.result_bits then shift_or cfg.result_bits k r d
        else r ||| (d % 2 ^ cfg.result_bits)) 0)
      (rd.advance (ds.length + 1)) := by
  obtain ⟨h1, h2, h3⟩ := ceil_div_spec cfg.result_bits k hk
  unfold sane_extract
  rw [hmax, lbeb_mask]
  exact sane_loop_threw cfg.result_bits k ds cfg.result_bits 0 0 rd hy hn (by omega)
    (fun i hi => by simpa using h2 i (by omega))

theorem operator_call_threw_value (cfg : config) (eng : fallback_engine) (sv : Nat)
    (s : sane_random_device eng.G) (rd rd1 : random_device) (r : Nat) (hp : s.prd = some rd)
    (he : extract cfg rd = .threw r rd1) :
    operator_call cfg eng sv s = .ok
      (r ^^^ (eng.random
          (s.rd_fallback.getD (eng.seed_seq (init_fallback_seeds s.token sv)))).1,
        { token := s.token, prd := some rd1, rd_reliable := false,
          rd_fallback := some (eng.random
            (s.rd_fallback.getD (eng.seed_seq (init_fallback_seeds s.token sv)))).2 }) := by
  rw [operator_call_threw cfg eng sv s rd rd1 r hp he]
  rcases Option.eq_none_or_eq_some s.rd_fallback with hg | ⟨g, hg⟩
  · have hi : init_fallback eng sv { s with prd := some rd1, rd_reliable := false }
        = { token := s.token, prd := some rd1, rd_reliable := false,
            rd_fallback := some (eng.seed_seq (init_fallback_seeds s.token sv)) } := by
      simp [init_fallback, hg]
    rw [hi, xor_fallback_unreliable eng r _ _ rfl rfl, hg]
    rfl
  · rw [init_fallback_present eng sv _ g (by exact hg),
      xor_fallback_unreliable eng r _ g rfl (by exact hg), hg]
    rfl

theorem operator_call_unreliable_stays (cfg : config) (eng : fallback_engine) (sv : Nat)
    (s s1 : sane_random_device eng.G) (v : Nat) (hr : s.rd_reliable = false)
    (h : operator_call cfg eng sv s = .ok (v, s1)) : s1.rd_reliable = false := by
  rcases Option.eq_none_or_eq_some s.prd with hp | ⟨rd, hp⟩
  · rw [operator_call_none cfg eng sv s hp] at h
    rcases Option.eq_none_or_eq_some s.rd_fallback with hg | ⟨g, hg⟩
    · rw [xor_fallback_null eng 0 _ rfl (by exact hg)] at h; cases h
    · rw [xor_fallback_unreliable eng 0 _ g rfl (by exact hg)] at h; cases h; rfl
  · cases he : extract cfg rd with
    | returned r rd1 =>
      rw [operator_call_returned cfg eng sv s rd rd1 r hp he] at h
      rcases Option.eq_none_or_eq_some s.rd_fallback with hg | ⟨g, hg⟩
      · rw [xor_fallback_null eng r _ (by exact hr) (by exact hg)] at h; cases h
      · rw [xor_fallback_unreliable eng r _ g (by exact hr) (by exact hg)] at h
        cases h; exact hr
    | threw r rd1 =>
      rw [operator_call_threw_value cfg eng sv s rd rd1 r hp he] at h
      cases h; rfl
    | stuck f =>
      rw [operator_call_stuck cfg eng sv s rd f hp he] at h; cases h

theorem draw_sequence_unreliable_stays (cfg : config) (eng : fallback_engine)
    (seeds : List Nat) :
    ∀ (s s1 : sane_random_device eng.G) (vs : List Nat), s.rd_reliable = false →
      draw_sequence cfg eng seeds s = .ok (vs, s1) → s1.rd_reliable = false := by
  induction seeds with
  | nil =>
    intro s s1 vs hr h
    simp only [draw_sequence, Except.ok.injEq, Prod.mk.injEq] at h
    rw [← h.2]; exact hr
  | cons sv rest ih =>
    intro s s1 vs hr h
    simp only [draw_sequence] at h
    rcases h1 : operator_call cfg eng sv s with f | ⟨v, s2⟩
    · simp [h1] at h
    · simp only [h1] at h
      rcases h2 : draw_sequence cfg eng rest s2 with f | ⟨ws, s3⟩
      · simp [h2] at h
      · simp only [h2, Except.ok.injEq, Prod.mk.injEq] at h
        obtain ⟨_, rfl⟩ := h
        exact ih s2 s3 ws (operator_call_unreliable_stays cfg eng sv s s2 v hr h1) h2

/-- C7: the value of a draw is the base result XOR `f`.  When the extraction returns
`r` on a reliable device the draw returns `r` and leaves the fallback generator as it
was, absent or not; when it returns `r` on an unreliable device the draw returns
`r XOR f` with `f` one value drawn from the generator, which advances by that one
draw; when the primary source throws with `result` holding `r`, the draw returns
`r XOR f` with `f` drawn from the generator the device has, or from the one seeded at
that moment; and without primary source the draw returns exactly `f`. -/
theorem C7_value_is_base_xor_fallback (cfg : config) (eng : fallback_engine) (seed_val : Nat)
    (s : sane_random_device eng.G) :
    (∀ rd rd1 r, s.prd = some rd → extract cfg rd = .returned r rd1 → s.rd_reliable = true →
      operator_call cfg eng seed_val s = .ok (r, { s with prd := some rd1 }) ∧
      ({ s with prd := some rd1 } : sane_random_device eng.G).rd_fallback = s.rd_fallback) ∧
    (∀ rd rd1 r g, s.prd = some rd → extract cfg rd = .returned r rd1 →
      s.rd_reliable = false → s.rd_fallback = some g →
      operator_call cfg eng seed_val s = .ok (r ^^^ (eng.random g).1,
        { s with prd := some rd1, rd_fallback := some (eng.random g).2 })) ∧
    (∀ rd rd1 r, s.prd = some rd → extract cfg rd = .threw r rd1 →
      operator_call cfg eng seed_val s = .ok
        (r ^^^ (eng.random
            (s.rd_fallback.getD (eng.seed_seq (init_fallback_seeds s.token seed_val)))).1,
          { token := s.token, prd := some rd1, rd_reliable := false,
            rd_fallback := some (eng.random
              (s.rd_fallback.getD (eng.seed_seq (init_fallback_seeds s.token seed_val)))).2 })) ∧
    (∀ g, s.prd = none → s.rd_fallback = some g →
      operator_call cfg eng seed_val s = .ok ((eng.random g).1,
        { s with rd_reliable := false, rd_fallback := some (eng.random g).2 })) := by
  refine ⟨?_, ?_, ?_, ?_⟩
  · intro rd rd1 r hp he hr
    rw [operator_call_returned cfg eng seed_val s rd rd1 r hp he,
      xor_fallback_reliable eng r _ (by exact hr)]
    exact ⟨rfl, rfl⟩
  · intro rd rd1 r g hp he hr hg
    rw [operator_call_returned cfg eng seed_val s rd rd1 r hp he,
      xor_fallback_unreliable eng r _ g (by exact hr) (by exact hg)]
  · intro rd rd1 r hp he
    exact operator_call_threw_value cfg eng seed_val s rd rd1 r hp he
  · intro g hp hg
    rw [operator_call_none cfg eng seed_val s hp,
      xor_fallback_unreliable eng 0 _ g rfl (by exact hg), Nat.zero_xor]

theorem construct_spec (eng : fallback_engine) (token : List Int)
    (made : Except exception random_device) (entropy : random_device → Except exception ℚ)
    (seed_val : Nat) :
    ((∃ e, construct eng token made entropy seed_val = .error e) ↔
      (made = .error .out_of_memory ∨
        ∃ rd, made = .ok rd ∧ entropy rd = .error .out_of_memory)) ∧
    (∀ e, construct eng token made entropy seed_val = .error e → e = .out_of_memory) ∧
    (∀ d, construct eng token made entropy seed_val = .ok d →
      (d.rd_reliable = true ↔ ∃ rd e, made = .ok rd ∧ entropy rd = .ok e ∧ 0 < e) ∧
      (d.rd_fallback.isSome = true ↔ d.rd_reliable = false) ∧
      d.token = token ∧ d.prd = made.toOption) := by
  rcases construct_cases eng token made entropy seed_val with ⟨h1, h2⟩ | ⟨rd, e, h2, h3, h4, h1⟩ |
    ⟨h2, h1⟩
  · refine ⟨⟨fun _ => h2, fun _ => ⟨_, h1⟩⟩, ?_, ?_⟩
    · intro e he; rw [h1] at he; cases he; rfl
    · intro d hd; rw [h1] at hd; cases hd
  · refine ⟨⟨?_, ?_⟩, ?_, ?_⟩
    · rintro ⟨e', he'⟩; rw [h1] at he'; cases he'
    · rintro (h | ⟨rd', h, h'⟩)
      · rw [h2] at h; cases h
      · rw [h2] at h; cases h; rw [h3] at h'; cases h'
    · intro e' he'; rw [h1] at he'; cases he'
    · intro d hd; rw [h1] at hd; cases hd
      refine ⟨⟨fun _ => ⟨rd, e, h2, h3, h4⟩, fun _ => rfl⟩, by simp, rfl, by rw [h2]; rfl⟩
  · refine ⟨⟨?_, ?_⟩, ?_, ?_⟩
    · rintro ⟨e', he'⟩; rw [h1] at he'; cases he'
    · rintro (h | ⟨rd', h, h'⟩)
      · rcases h2 with h2 | ⟨rd, h2, _⟩ <;> · rw [h2] at h; cases h
      · rcases h2 with h2 | ⟨rd, h2, h3 | ⟨e, h3, _⟩⟩
        · rw [h2] at h; cases h
        · rw [h2] at h; cases h; rw [h3] at h'; cases h'
        · rw [h2] at h; cases h; rw [h3] at h'; cases h'
    · intro e' he'; rw [h1] at he'; cases he'
    · intro d hd; rw [h1] at hd; cases hd
      refine ⟨⟨fun h => by simp at h, ?_⟩, by simp, rfl, rfl⟩
      rintro ⟨rd', e', h, h', hpos⟩
      rcases h2 with h2 | ⟨rd, h2, h3 | ⟨e, h3, hn⟩⟩
      · rw [h2] at h; cases h
      · rw [h2] at h; cases h; rw [h3] at h'; cases h'
      · rw [h2] at h; cases h; rw [h3] at h'; cases h'; exact absurd hpos hn

/-- C8: each constructor, without or with a token, raises exactly when creating the
native source or querying its entropy fails with the out-of-memory failure, and then
raises that failure; for every other outcome it returns a device whose `rd_reliable`
is true exactly when the native source was created and its entropy estimate is
positive, and whose fallback generator is present exactly when `rd_reliable` is
false. -/
theorem C8_construction_outcomes (eng : fallback_engine) (token : List Int)
    (made : Except exception random_device)
    (made_token : List Int → Except exception random_device)
    (entropy : random_device → Except exception ℚ) (seed_val : Nat) :
    (((∃ e, sane_random_device.new eng made entropy seed_val = .error e) ↔
        (made = .error .out_of_memory ∨
          ∃ rd, made = .ok rd ∧ entropy rd = .error .out_of_memory)) ∧
      (∀ e, sane_random_device.new eng made entropy seed_val = .error e →
        e = .out_of_memory) ∧
      (∀ d, sane_random_device.new eng made entropy seed_val = .ok d →
        (d.rd_reliable = true ↔ ∃ rd e, made = .ok rd ∧ entropy rd = .ok e ∧ 0 < e) ∧
        (d.rd_fallback.isSome = true ↔ d.rd_reliable = false) ∧
        d.token = [] ∧ d.prd = made.toOption)) ∧
    (((∃ e, sane_random_device.new_token eng token made_token entropy seed_val = .error e) ↔
        (made_token token = .error .out_of_memory ∨
          ∃ rd, made_token token = .ok rd ∧ entropy rd = .error .out_of_memory)) ∧
      (∀ e, sane_random_device.new_token eng token made_token entropy seed_val = .error e →
        e = .out_of_memory) ∧
      (∀ d, sane_random_device.new_token eng token made_token entropy seed_val = .ok d →
        (d.rd_reliable = true ↔
          ∃ rd e, made_token token = .ok rd ∧ entropy rd = .ok e ∧ 0 < e) ∧
        (d.rd_fallback.isSome = true ↔ d.rd_reliable = false) ∧
        d.token = token ∧ d.prd = (made_token token).toOption)) :=
  ⟨construct_spec eng [] made entropy seed_val,
    construct_spec eng token (made_token token) entropy seed_val⟩

theorem push_token_eq (token : List Int) :
    ∀ seeds : List Nat, push_token seeds token = seeds ++ token.map (fun c => (c % 256).toNat) := by
  induction token with
  | nil => intro seeds; simp [push_token]
  | cons c t ih =>
    intro seeds
    have := ih (seeds ++ [(c % 256).toNat])
    simp only [push_token, List.foldl_cons] at this ⊢
    rw [this]; simp

theorem init_fallback_seeds_eq (token : List Int) (s : Nat) (hs : s < 2 ^ 64) :
    init_fallback_seeds token s
      = [s >>> 32, s % 2 ^ 32] ++ token.map (fun c => (c % 256).toNat) := by
  have h1 : (s >>> 32) % 2 ^ 32 = s >>> 32 := by
    rw [Nat.shiftRight_eq_div_pow]
    apply Nat.mod_eq_of_lt
    rw [Nat.div_lt_iff_lt_mul (by positivity)]
    calc s < 2 ^ 64 := hs
      _ = 2 ^ 32 * 2 ^ 32 := by norm_num
  unfold init_fallback_seeds
  split
  · rw [push_token_eq, h1]; rfl
  · rename_i h
    have : token = [] := by
      cases token with
      | nil => rfl
      | cons _ _ => simp at h
    subst this
    rw [h1]; rfl

theorem byte_map_inj (lo : Int) (t1 : List Int) :
    ∀ t2 : List Int, (∀ c ∈ t1, lo ≤ c ∧ c < lo + 256) → (∀ c ∈ t2, lo ≤ c ∧ c < lo + 256) →
      t1.map (fun c => (c % 256).toNat) = t2.map (fun c => (c % 256).toNat) → t1 = t2 := by
  induction t1 with
  | nil => intro t2 _ _ h; cases t2 with
    | nil => rfl
    | cons _ _ => simp at h
  | cons c t ih =>
    intro t2 h1 h2 h
    cases t2 with
    | nil => simp at h
    | cons c' t' =>
      simp only [List.map_cons, List.cons.injEq] at h
      have hc := h1 c (by simp)
      have hc' := h2 c' (by simp)
      have : c = c' := by
        have := h.1
        omega
      rw [this, ih t' (fun x hx => h1 x (by simp [hx])) (fun x hx => h2 x (by simp [hx])) h.2]

/-- C9: for a time seed `s` below `2 ^ 64` and a token `t`, the seed words that
`init_fallback` hands to the seed sequence are `s >> 32` and `s mod 2 ^ 32` followed
by one word per `char` of the token, in order, each the `char` as an unsigned byte in
`[0, 255]`; the list has length `2 + |t|`; its first two words recombine to `s`; for
the empty token it is the two-word list of the branch without token; and a device
without generator gets the generator seeded with exactly this list. -/
theorem C9_seed_words (eng : fallback_engine) (dev : sane_random_device eng.G) (s : Nat)
    (t : List Int) (hs : s < 2 ^ 64) :
    init_fallback_seeds t s = [s >>> 32, s % 2 ^ 32] ++ t.map (fun c => (c % 256).toNat) ∧
    (∀ w ∈ t.map (fun c => (c % 256).toNat), w ≤ 255) ∧
    (init_fallback_seeds t s).length = 2 + t.length ∧
    (s >>> 32) * 2 ^ 32 + s % 2 ^ 32 = s ∧
    init_fallback_seeds [] s = [s >>> 32, s % 2 ^ 32] ∧
    (dev.rd_fallback = none →
      (init_fallback eng s dev).rd_fallback
        = some (eng.seed_seq (init_fallback_seeds dev.token s))) := by
  have h := init_fallback_seeds_eq t s hs
  refine ⟨h, ?_, ?_, ?_, ?_, ?_⟩
  · intro w hw
    simp only [List.mem_map] at hw
    obtain ⟨c, _, rfl⟩ := hw
    omega
  · rw [h]; simp; omega
  · rw [Nat.shiftRight_eq_div_pow]; omega
  · have := init_fallback_seeds_eq [] s hs
    simpa using this
  · intro hd
    simp [init_fallback, hd]

/-- A use of C9 with the seed `2 ^ 32 + 7` and a two-`char` token. -/
theorem C9_seed_words_witness :
    init_fallback_seeds [97, -1] (2 ^ 32 + 7)
      = [(2 ^ 32 + 7) >>> 32, (2 ^ 32 + 7) % 2 ^ 32]
          ++ [97, -1].map (fun c : Int => (c % 256).toNat) :=
  (C9_seed_words counter_engine (reliable_device (scripted [])) (2 ^ 32 + 7) [97, -1]
    (by decide)).1

/-- C10: for time seeds below `2 ^ 64` and tokens whose `char`s lie in one range of 256
consecutive values (the range of the `char` type), the seed words determine the token
for one and the same time seed, and they determine the pair of time seed and token:
distinct tokens with the same time seed get distinct seed words. -/
theorem C10_seed_words_injective (lo : Int) (s1 s2 : Nat) (t1 t2 : List Int)
    (hs1 : s1 < 2 ^ 64) (hs2 : s2 < 2 ^ 64)
    (ht1 : ∀ c ∈ t1, lo ≤ c ∧ c < lo + 256) (ht2 : ∀ c ∈ t2, lo ≤ c ∧ c < lo + 256) :
    (init_fallback_seeds t1 s1 = init_fallback_seeds t2 s1 → t1 = t2) ∧
    (t1 ≠ t2 → init_fallback_seeds t1 s1 ≠ init_fallback_seeds t2 s1) ∧
    (init_fallback_seeds t1 s1 = init_fallback_seeds t2 s2 → s1 = s2 ∧ t1 = t2) := by
  have key : init_fallback_seeds t1 s1 = init_fallback_seeds t2 s2 → s1 = s2 ∧ t1 = t2 := by
    intro h
    rw [init_fallback_seeds_eq t1 s1 hs1, init_fallback_seeds_eq t2 s2 hs2] at h
    simp only [List.cons_append, List.nil_append, List.cons.injEq] at h
    obtain ⟨h1, h2, h3⟩ := h
    refine ⟨?_, byte_map_inj lo t1 t2 ht1 ht2 h3⟩
    rw [Nat.shiftRight_eq_div_pow, Nat.shiftRight_eq_div_pow] at h1
    omega
  have key1 : init_fallback_seeds t1 s1 = init_fallback_seeds t2 s1 → t1 = t2 := by
    intro h
    rw [init_fallback_seeds_eq t1 s1 hs1, init_fallback_seeds_eq t2 s1 hs1] at h
    simp only [List.cons_append, List.nil_append, List.cons.injEq, true_and] at h
    exact byte_map_inj lo t1 t2 ht1 ht2 h
  exact ⟨key1, fun hne h => hne (key1 h), key⟩

/-- A use of C10 with signed `char`s: the tokens `a` and `b` at the same instant. -/
theorem C10_seed_words_injective_witness :
    init_fallback_seeds [97] 5 ≠ init_fallback_seeds [98] 5 :=
  (C10_seed_words_injective (-128) 5 5 [97] [98] (by decide) (by decide) (by decide)
    (by decide)).2.1 (by decide)

theorem insane_result_of_lt (cfg : config) (size n v : Nat) (hv : v < size ^ n) :
    insane_result cfg (size : ℚ) n (v : ℚ) = cfg.min := by
  have hpos : (0 : ℚ) < (size : ℚ) ^ n := by
    have : 0 < size ^ n := by omega
    exact_mod_cast this
  have hfl : ⌊(v : ℚ) / (size : ℚ) ^ n⌋ = 0 := by
    rw [Int.floor_eq_zero_iff]
    refine ⟨by positivity, ?_⟩
    rw [div_lt_one hpos]
    exact_mod_cast hv
  simp [insane_result, hfl, config.min]

/-- C4: the insane branch does not spread its result over the target range.  For a raw
range `[rd_min, rd_max]`, any iteration count `n` and any `n` in-range draws, the
accumulator is below `size ^ n`, so `floor (acc / size ^ n)` is 0 and the result is
`MIN`, in the code as in the formula of the specification; for a result type of at
least one bit, `MAX` is never returned. -/
theorem C4_insane_result_is_min (cfg : config) (n : Nat) (ds : List Nat) (rd : random_device)
    (hmm : cfg.rd_min ≤ cfg.rd_max) (hds : ∀ d ∈ ds, cfg.rd_min ≤ d ∧ d ≤ cfg.rd_max)
    (hy : yields ds rd = true) (hl : ds.length = n) :
    insane_extract_with cfg n rd = .returned cfg.min (rd.advance n) ∧
    spec_insane_value cfg (cfg.rd_max - cfg.rd_min + 1) n
      (spec_mixed_radix (cfg.rd_max - cfg.rd_min + 1) cfg.rd_min ds) = cfg.min ∧
    (0 < cfg.result_bits → insane_extract_with cfg n rd ≠ .returned cfg.max (rd.advance n)) := by
  have hsz : (cfg.rd_max : ℚ) - (cfg.rd_min : ℚ) + 1 = ((cfg.rd_max - cfg.rd_min + 1 : Nat) : ℚ) := by
    push_cast [Nat.cast_sub hmm]; ring
  have hlt := mixed_radix_lt (cfg.rd_max - cfg.rd_min + 1) cfg.rd_min ds
    (fun d hd => ((in_range_iff cfg.rd_min cfg.rd_max d hmm).1 (hds d hd)).2)
  rw [hl] at hlt
  have hret : insane_extract_with cfg n rd = .returned cfg.min (rd.advance n) := by
    have hloop := insane_loop_some ((cfg.rd_max : ℚ) - (cfg.rd_min : ℚ) + 1) (cfg.rd_min : ℚ)
      ds 0 rd hy
    have hfold := foldl_mixed_radix (cfg.rd_max - cfg.rd_min + 1) cfg.rd_min ds
      (fun e he => (hds e he).1) 0
    simp only [Nat.cast_zero, Nat.zero_mul, Nat.zero_add] at hfold
    rw [hl, hsz, hfold] at hloop
    simp only [insane_extract_with, hsz, hloop]
    rw [insane_result_of_lt cfg _ n _ hlt]
  refine ⟨hret, ?_, ?_⟩
  · simp [spec_insane_value, Nat.div_eq_of_lt hlt]
  · intro hW h
    rw [hret] at h
    injection h with h _
    have : 2 ^ 1 ≤ 2 ^ cfg.result_bits := Nat.pow_le_pow_right (by norm_num) hW
    simp only [config.min, config.max] at h
    omega

/-- A use of C4 on the raw range `[0, 9]` with 8-bit results: the draws 9, 9, 9
give 0. -/
theorem C4_insane_result_is_min_witness :
    insane_extract_with cfg10 3 (scripted [some 9, some 9, some 9])
      = .returned cfg10.min ((scripted [some 9, some 9, some 9]).advance 3) :=
  (C4_insane_result_is_min cfg10 3 [9, 9, 9] (scripted [some 9, some 9, some 9]) (by decide)
    (by decide) (by decide) (by decide)).1

/-- C1 as stated fails: on 16-bit raw values and 32-bit results, a reliable device whose
primary source throws at its first invocation and then returns 3 and 5 becomes
unreliable in the first draw (one invocation, value 1005 from the fallback generator);
the second draw, on the now unreliable device, invokes the primary source twice more
and returns `(3 * 65536 + 5) XOR 1006`. -/
theorem C1_unreliable_draw_invokes_primary_counterexample :
    operator_call cfg16 counter_engine 5 (reliable_device (scripted [none, some 3, some 5]))
      = .ok (1005, unreliable_device ((scripted [none, some 3, some 5]).advance 1) 1006) ∧
    primary_failed cfg16 (reliable_device (scripted [none, some 3, some 5])) = true ∧
    (unreliable_device ((scripted [none, some 3, some 5]).advance 1) 1006).rd_reliable = false ∧
    operator_call cfg16 counter_engine 6
        (unreliable_device ((scripted [none, some 3, some 5]).advance 1) 1006)
      = .ok (197611, unreliable_device ((scripted [none, some 3, some 5]).advance 3) 1007) ∧
    primary_calls (unreliable_device ((scripted [none, some 3, some 5]).advance 1) 1006) = 1 ∧
    primary_calls (unreliable_device ((scripted [none, some 3, some 5]).advance 3) 1007) = 3 := by
  have he1 : extract cfg16 (scripted [none, some 3, some 5])
      = .threw 0 ((scripted [none, some 3, some 5]).advance 1) := by
    rw [extract_sane cfg16 16 _ (by decide) rfl (by decide) (by decide) (by decide)]
    exact sane_extract_threw cfg16 16 [] _ (by decide) (by decide) (by decide) (by decide)
      (by decide)
  have he2 : extract cfg16 ((scripted [none, some 3, some 5]).advance 1)
      = .returned 196613 ((scripted [none, some 3, some 5]).advance 3) := by
    rw [extract_sane cfg16 16 _ (by decide) rfl (by decide) (by decide) (by decide)]
    exact sane_extract_returned cfg16 16 [3, 5] _ (by decide) (by decide) (by decide)
      (by decide)
  refine ⟨?_, ?_, rfl, ?_, rfl, rfl⟩
  · rw [operator_call_threw_value cfg16 counter_engine 5 _ _ _ 0 rfl he1]
    rfl
  · simp only [primary_failed, reliable_device, he1]
  · rw [operator_call_returned cfg16 counter_engine 6 _ _ _ 196613 rfl he2,
      xor_fallback_unreliable counter_engine 196613 _ (1006 : Nat) rfl rfl]
    rfl

/-- C1, as amended: a draw invokes the primary source exactly when the handle `prd` is
present at the start of the draw, whatever `rd_reliable` is.  On a valid configuration
and in a state that satisfies the device invariant, a draw returns; when the handle is
present the draw makes at least one invocation and keeps the handle, so a later draw
invokes the primary source again, also after a draw in which it failed; when the
handle is absent the draw makes no invocation and the handle stays absent. -/
theorem C1_draw_invokes_primary_iff_handle (cfg : config) (eng : fallback_engine)
    (seed_val : Nat) (s : sane_random_device eng.G) (hv : cfg.valid) (hinv : invariant s) :
    ∃ v s1, operator_call cfg eng seed_val s = .ok (v, s1) ∧ invariant s1 ∧
      (s.prd.isSome = true → primary_calls s < primary_calls s1 ∧ s1.prd.isSome = true) ∧
      (s.prd = none → primary_calls s1 = primary_calls s ∧ s1.prd = none) := by
  obtain ⟨h1, h2⟩ := hinv
  rcases Option.eq_none_or_eq_some s.prd with hp | ⟨rd, hp⟩
  · have hr : s.rd_reliable = false := h2 (by simp [hp])
    obtain ⟨g, hg⟩ := Option.isSome_iff_exists.1 (h1 hr)
    rw [operator_call_none cfg eng seed_val s hp]
    refine ⟨_, _, xor_fallback_unreliable eng 0 _ g rfl hg, by simp [invariant], ?_, ?_⟩
    · intro h; simp [hp] at h
    · intro _; simp [primary_calls, hp]
  · have hcalls : ∀ j, 1 ≤ j → primary_calls s < (rd.advance j).calls := by
      intro j hj
      simp only [primary_calls, hp, random_device.advance]
      omega
    obtain ⟨r, j, hj, he | he⟩ := extract_total cfg hv rd
    · rw [operator_call_returned cfg eng seed_val s rd _ r hp he]
      rcases Bool.eq_false_or_eq_true s.rd_reliable with hr | hr
      · refine ⟨_, _, xor_fallback_reliable eng r _ hr, by simp [invariant, hr], ?_, ?_⟩
        · intro _; exact ⟨hcalls j hj, rfl⟩
        · intro h; rw [hp] at h; cases h
      · obtain ⟨g, hg⟩ := Option.isSome_iff_exists.1 (h1 hr)
        refine ⟨_, _, xor_fallback_unreliable eng r _ g hr hg, by simp [invariant], ?_, ?_⟩
        · intro _; exact ⟨hcalls j hj, rfl⟩
        · intro h; rw [hp] at h; cases h
    · rw [operator_call_threw_value cfg eng seed_val s rd _ r hp he]
      refine ⟨_, _, rfl, by simp [invariant], ?_, ?_⟩
      · intro _; exact ⟨hcalls j hj, rfl⟩
      · intro h; rw [hp] at h; cases h

/-- A use of the amended C1 on a device that is unreliable and has its handle. -/
theorem C1_draw_invokes_primary_iff_handle_witness :
    ∃ v s1, operator_call cfg16 counter_engine 6
        (unreliable_device ((scripted [none, some 3, some 5]).advance 1) 1006) = .ok (v, s1) ∧
      invariant s1 ∧
      ((unreliable_device ((scripted [none, some 3, some 5]).advance 1) 1006).prd.isSome = true →
        primary_calls (unreliable_device ((scripted [none, some 3, some 5]).advance 1) 1006)
          < primary_calls s1 ∧ s1.prd.isSome = true) ∧
      ((unreliable_device ((scripted [none, some 3, some 5]).advance 1) 1006).prd = none →
        primary_calls s1
          = primary_calls (unreliable_device ((scripted [none, some 3, some 5]).advance 1) 1006) ∧
        s1.prd = none) :=
  C1_draw_invokes_primary_iff_handle cfg16 counter_engine 6
    (unreliable_device ((scripted [none, some 3, some 5]).advance 1) 1006)
    ⟨by decide, by decide, by decide, by decide⟩ (by simp [invariant, unreliable_device])

/-- What a returning draw does to the reliability flag in a state that satisfies the
device invariant: the flag is false afterwards exactly when it was false before or an
invocation of the primary source threw during the draw. -/
theorem operator_call_flag (cfg : config) (eng : fallback_engine) (sv : Nat)
    (s s1 : sane_random_device eng.G) (v : Nat) (hinv : invariant s)
    (h : operator_call cfg eng sv s = .ok (v, s1)) :
    (s1.rd_reliable = false ↔ (s.rd_reliable = false ∨ primary_failed cfg s = true)) := by
  rcases Bool.eq_false_or_eq_true s.rd_reliable with hr | hr
  swap
  · have := operator_call_unreliable_stays cfg eng sv s s1 v hr h
    simp [this, hr]
  · rcases Option.eq_none_or_eq_some s.prd with hp | ⟨rd, hp⟩
    · have := hinv.2 (by simp [hp]); rw [hr] at this; cases this
    · cases he : extract cfg rd with
      | returned r rd1 =>
        rw [operator_call_returned cfg eng sv s rd rd1 r hp he,
          xor_fallback_reliable eng r _ (by exact hr)] at h
        cases h
        simp [primary_failed, hp, he, hr]
      | threw r rd1 =>
        rw [operator_call_threw_value cfg eng sv s rd rd1 r hp he] at h
        cases h
        simp [primary_failed, hp, he]
      | stuck f =>
        rw [operator_call_stuck cfg eng sv s rd f hp he] at h; cases h

/-- C3: the reliability flag is one-directional.  For every device state, if
`rd_reliable` is false before a draw that returns, it is false after it, and the same
holds from any point of any sequence of draws, so that along a sequence the flag
changes at most once, from true to false; and in a state that satisfies the device
invariant, a draw changes the flag exactly when the flag was true and an invocation of
the primary source threw during that draw: such a draw clears the flag, and a draw on
a reliable device in which no invocation throws leaves it true.  On a valid
configuration such a draw returns, so the statement is about an actual state. -/
theorem C3_reliable_one_directional (cfg : config) (eng : fallback_engine) (seed_val : Nat)
    (s : sane_random_device eng.G) :
    (∀ v s1, s.rd_reliable = false → operator_call cfg eng seed_val s = .ok (v, s1) →
      s1.rd_reliable = false) ∧
    (∀ seeds vs s1, s.rd_reliable = false → draw_sequence cfg eng seeds s = .ok (vs, s1) →
      s1.rd_reliable = false) ∧
    (∀ seeds seeds1 vs vs1 s1 s2, draw_sequence cfg eng seeds s = .ok (vs, s1) →
      draw_sequence cfg eng seeds1 s1 = .ok (vs1, s2) → s1.rd_reliable = false →
      s2.rd_reliable = false) ∧
    (∀ v s1, invariant s → operator_call cfg eng seed_val s = .ok (v, s1) →
      (s1.rd_reliable ≠ s.rd_reliable ↔
        (s.rd_reliable = true ∧ primary_failed cfg s = true)) ∧
      (s.rd_reliable = true → primary_failed cfg s = true → s1.rd_reliable = false) ∧
      (s.rd_reliable = true → primary_failed cfg s = false → s1.rd_reliable = true)) ∧
    (cfg.valid → invariant s →
      ∃ v s1, operator_call cfg eng seed_val s = .ok (v, s1) ∧
        (s1.rd_reliable = false ↔ (s.rd_reliable = false ∨ primary_failed cfg s = true))) := by
  refine ⟨fun v s1 hr h => operator_call_unreliable_stays cfg eng seed_val s s1 v hr h,
    fun seeds vs s1 hr h => draw_sequence_unreliable_stays cfg eng seeds s s1 vs hr h,
    fun seeds seeds1 vs vs1 s1 s2 _ h2 hr =>
      draw_sequence_unreliable_stays cfg eng seeds1 s1 s2 vs1 hr h2, ?_, ?_⟩
  · intro v s1 hinv h
    have hf := operator_call_flag cfg eng seed_val s s1 v hinv h
    refine ⟨?_, ?_, ?_⟩
    · rcases Bool.eq_false_or_eq_true s.rd_reliable with hr | hr
      · rcases Bool.eq_false_or_eq_true (primary_failed cfg s) with hp | hp
        · have : s1.rd_reliable = false := hf.2 (Or.inr hp)
          simp [this, hr, hp]
        · have : s1.rd_reliable = true := by
            rw [← Bool.not_eq_false]; intro h1
            rcases hf.1 h1 with h2 | h2
            · rw [hr] at h2; cases h2
            · rw [hp] at h2; cases h2
          simp [this, hr, hp]
      · have : s1.rd_reliable = false := hf.2 (Or.inl hr)
        simp [this, hr]
    · intro _ hp; exact hf.2 (Or.inr hp)
    · intro hr hp
      rw [← Bool.not_eq_false]; intro h1
      rcases hf.1 h1 with h2 | h2
      · rw [hr] at h2; cases h2
      · rw [hp] at h2; cases h2
  · intro hv hinv
    obtain ⟨v, s1, h, _⟩ := operator_call_invariant cfg hv eng seed_val s hinv
    exact ⟨v, s1, h, operator_call_flag cfg eng seed_val s s1 v hinv h⟩

/-- The number of invocations of the insane branch run for `n` iterations: at most `n`,
and exactly `n`, with the branch returning, when the next `n` invocations succeed. -/
theorem insane_extract_with_draws (cfg : config) (n : Nat) (rd : random_device) :
    (∃ j, (insane_extract_with cfg n rd).draws rd = some j ∧ j ≤ n) ∧
    (succeeds n rd = true →
      ∃ r, insane_extract_with cfg n rd = .returned r (rd.advance n) ∧
        (insane_extract_with cfg n rd).draws rd = some n) ∧
    (succeeds n rd = false →
      ∃ j, j < n ∧ succeeds j rd = true ∧
        insane_extract_with cfg n rd = .threw 0 (rd.advance (j + 1)) ∧
        (insane_extract_with cfg n rd).draws rd = some (j + 1)) := by
  rcases insane_extract_with_cases cfg n rd with ⟨ds, hl, hy, he⟩ | ⟨ds, hl, hy, hn, he⟩
  · have hs : succeeds n rd = true := (succeeds_iff n rd).2 ⟨ds, hl, hy⟩
    refine ⟨⟨n, by rw [he]; simp only [extraction.draws, advance_calls], le_rfl⟩, ?_, ?_⟩
    · intro _
      exact ⟨_, he, by rw [he]; simp only [extraction.draws, advance_calls]⟩
    · intro h; rw [hs] at h; cases h
  · refine ⟨⟨ds.length + 1, by rw [he]; simp only [extraction.draws, advance_calls], hl⟩,
      ?_, ?_⟩
    · intro hs
      exact absurd hn (succeeds_not_fails n rd ds hs hy hl)
    · intro _
      exact ⟨ds.length, hl, (succeeds_iff _ rd).2 ⟨ds, rfl, hy⟩, he,
        by rw [he]; simp only [extraction.draws, advance_calls]⟩

theorem insane_extract_eq (cfg : config) (rd : random_device) (hmm : cfg.rd_min < cfg.rd_max) :
    insane_iterations cfg.result_bits (cfg.rd_max - cfg.rd_min + 1)
      = some (Nat.clog (cfg.rd_max - cfg.rd_min + 1) (2 ^ cfg.result_bits)) ∧
    insane_extract cfg rd
      = insane_extract_with cfg (Nat.clog (cfg.rd_max - cfg.rd_min + 1) (2 ^ cfg.result_bits))
          rd := by
  have hs : ¬ (cfg.rd_max - cfg.rd_min + 1 ≤ 1) := by omega
  have h1 : insane_iterations cfg.result_bits (cfg.rd_max - cfg.rd_min + 1)
      = some (Nat.clog (cfg.rd_max - cfg.rd_min + 1) (2 ^ cfg.result_bits)) := by
    simp only [insane_iterations, hs, if_false]
  exact ⟨h1, by simp only [insane_extract, h1]⟩

/-- C13: every extraction ends after a number of invocations of the primary source
fixed by `W` and the raw range, whatever the values drawn.  On the sane branch with
raw range `[0, 2 ^ k - 1]`, `k >= 1` (which `is_mask` guarantees for the shift count),
the loop is never out of iterations, makes at most `ceil (W / k)` invocations, and
exactly that many when none of them throws.  On the insane branch of any configuration
`icfg` with `min < max`, the iteration count is computed, it is
`n = ceil (W / log2 size)`, the branch never lacks a result, makes at most `n`
invocations, exactly `n` when none of them throws, and stops at the first throw
otherwise; and on a valid configuration the branch selected by `extract` makes at
least one and finitely many invocations. -/
theorem C13_extraction_terminates (cfg icfg : config) (k : Nat) (rd : random_device)
    (hk : 1 ≤ k) (hmax : cfg.rd_max = 2 ^ k - 1) :
    (∀ w x, 0 < w → x < 2 ^ w → is_mask w x = true → 1 ≤ lower_bound_entropy_bits x) ∧
    (∃ j, (sane_extract cfg rd).draws rd = some j ∧ j ≤ ceil_div cfg.result_bits k) ∧
    (succeeds (ceil_div cfg.result_bits k) rd = true →
      ∃ r, sane_extract cfg rd = .returned r (rd.advance (ceil_div cfg.result_bits k)) ∧
        (sane_extract cfg rd).draws rd = some (ceil_div cfg.result_bits k)) ∧
    (∀ n, (∃ j, (insane_extract_with icfg n rd).draws rd = some j ∧ j ≤ n) ∧
      (succeeds n rd = true →
        ∃ r, insane_extract_with icfg n rd = .returned r (rd.advance n) ∧
          (insane_extract_with icfg n rd).draws rd = some n)) ∧
    (icfg.rd_min < icfg.rd_max →
      ∃ n, insane_iterations icfg.result_bits (icfg.rd_max - icfg.rd_min + 1) = some n ∧
        n = ⌈(icfg.result_bits : ℝ)
              / Real.logb 2 ((icfg.rd_max - icfg.rd_min + 1 : Nat) : ℝ)⌉₊ ∧
        (∃ j, (insane_extract icfg rd).draws rd = some j ∧ j ≤ n) ∧
        (succeeds n rd = true →
          ∃ r, insane_extract icfg rd = .returned r (rd.advance n) ∧
            (insane_extract icfg rd).draws rd = some n) ∧
        (succeeds n rd = false →
          ∃ j, j < n ∧ succeeds j rd = true ∧
            insane_extract icfg rd = .threw 0 (rd.advance (j + 1)) ∧
            (insane_extract icfg rd).draws rd = some (j + 1))) ∧
    (icfg.valid → ∃ j, (extract icfg rd).draws rd = some j ∧ 1 ≤ j) := by
  have hlb : lower_bound_entropy_bits cfg.rd_max = k := by rw [hmax, lbeb_mask]
  have hc := sane_loop_cases cfg.result_bits k cfg.result_bits hk
    (ceil_div_spec cfg.result_bits k hk).2.2 rd
  refine ⟨fun w x hw hx h => lbeb_pos_of_is_mask w x hw hx h, ?_, ?_, ?_, ?_, ?_⟩
  · unfold sane_extract
    rw [hlb]
    rcases hc with ⟨ds, hl, _, he⟩ | ⟨ds, hl, _, _, he⟩
    · exact ⟨_, by rw [he]; simp only [extraction.draws, advance_calls], le_rfl⟩
    · exact ⟨_, by rw [he]; simp only [extraction.draws, advance_calls], hl⟩
  · intro hs
    unfold sane_extract
    rw [hlb]
    rcases hc with ⟨ds, hl, _, he⟩ | ⟨ds, hl, hy, hn, _⟩
    · exact ⟨_, he, by rw [he]; simp only [extraction.draws, advance_calls]⟩
    · exact absurd hn (succeeds_not_fails _ rd ds hs hy hl)
  · intro n
    exact ⟨(insane_extract_with_draws icfg n rd).1, (insane_extract_with_draws icfg n rd).2.1⟩
  · intro hmm
    obtain ⟨h1, h2⟩ := insane_extract_eq icfg rd hmm
    obtain ⟨h3, h4, h5⟩ := insane_extract_with_draws icfg
      (Nat.clog (icfg.rd_max - icfg.rd_min + 1) (2 ^ icfg.result_bits)) rd
    refine ⟨_, h1, clog_eq_ceil icfg.result_bits _ (by omega), ?_, ?_, ?_⟩
    · rw [h2]; exact h3
    · rw [h2]; exact h4
    · rw [h2]; exact h5
  · intro hv
    obtain ⟨r, j, hj, he | he⟩ := extract_total icfg hv rd
    · exact ⟨j, by rw [he]; simp only [extraction.draws, advance_calls], hj⟩
    · exact ⟨j, by rw [he]; simp only [extraction.draws, advance_calls], hj⟩

/-- A use of C13 on 4-bit raw values and 8-bit results (two invocations), with the raw
range `[0, 9]` for the insane branch. -/
theorem C13_extraction_terminates_witness :
    (∃ j, (sane_extract cfg4 (scripted [some 1, some 2])).draws (scripted [some 1, some 2])
      = some j ∧ j ≤ ceil_div cfg4.result_bits 4) ∧
    (∃ j, (extract cfg10 (scripted [some 1, some 2])).draws (scripted [some 1, some 2])
      = some j ∧ 1 ≤ j) :=
  ⟨(C13_extraction_terminates cfg4 cfg10 4 (scripted [some 1, some 2]) (by decide)
      (by decide)).2.1,
    (C13_extraction_terminates cfg4 cfg10 4 (scripted [some 1, some 2]) (by decide)
      (by decide)).2.2.2.2.2 ⟨by decide, by decide, by decide, by decide⟩⟩

end mpt
